import Mathlib

/-!
Shallow embedding of the single-instrument limit order book in
`src/order_book/order_book.{h,cpp}` (class `OrderBook`), together with
proofs about its public operations.

Modelling conventions:
* Prices are `double` in the source but are never the result of arithmetic:
  they are copied verbatim from the inputs and only compared (`<`, `!=`,
  map comparators).  Following the spec's own note that a scaled integer
  tick representation does not change semantics, prices are modelled as `Int`.
* Quantities and timestamps are `uint64_t`; they are modelled as `Nat`.
  The only arithmetic on a live order's quantity is `q -= min(q, q')`,
  which never wraps, so plain `Nat` subtraction is exact.  The snapshot
  accumulates level totals in a `uint64_t`, which can wrap, so the level
  total is reduced `% 2^64`.
* The memory pool (`MemoryPool`) hands out stable `Order*` handles; handles
  are modelled as `Nat` indexing an unbounded slot store `Nat → Order`.
  `free_list` is a stack: the C++ code pushes and pops at the back of a
  vector, modelled here by consing and matching at the head of a list.
* `std::map<double, std::list<Order*>, cmp>` side books are modelled as
  association lists of `(price, FIFO of handles)` kept in iteration order
  (descending prices for bids, ascending for asks); `std::map` insertion
  corresponds to ordered insertion into the list.
* `std::unordered_map<uint64_t, Order*> order_lookup` is modelled as an
  association list; only membership, lookup and erasure are relied on.
* The matching loop `try_match` is a `while` loop; it is modelled with
  explicit fuel, and we prove that fuel equal to the number of orders
  resting in the book suffices (each iteration removes at least one).
* The wall clock `get_timestamp_ns` is an input: operations that read the
  clock take the current reading `now` as an argument.
* `pool.allocate()` throws `std::runtime_error("Memory pool exhausted")`
  when the free list is empty; `add_order` surfaces this as an
  `Option String` error component, with the book returned unchanged.
-/

/-- `struct Order` from order_book.h. -/
structure Order where
  order_id : Nat
  is_buy : Bool
  price : Int
  quantity : Nat
  timestamp_ns : Nat
deriving DecidableEq, Repr

instance : Inhabited Order := ⟨⟨0, false, 0, 0, 0⟩⟩

/-- `struct PriceLevel` from order_book.h. -/
structure PriceLevel where
  price : Int
  total_quantity : Nat
deriving DecidableEq, Repr

/-- A trade event as printed by `try_match`:
`match_qty @ match_price (buy order, sell order)`. -/
structure Trade where
  qty : Nat
  price : Int
  buy_id : Nat
  sell_id : Nat
deriving DecidableEq, Repr

/-- `struct OrderBook::MemoryPool`: a slot store plus a free stack.
The C++ pool is a fixed array of `capacity` slots; the store is modelled
as a total function from handles, and capacity shows up only through the
(finite) free list. -/
structure MemoryPool where
  slots : Nat → Order
  free_list : List Nat

/-- `*handle` — read the order record a handle points at. -/
def readSlot (p : MemoryPool) (h : Nat) : Order := p.slots h

/-- `*handle = o` — overwrite the order record a handle points at. -/
def writeSlot (p : MemoryPool) (h : Nat) (o : Order) : MemoryPool :=
  { p with slots := Function.update p.slots h o }

/-- One side book: price levels in iteration order (best first), each with
its FIFO of handles.  Models `std::map<double, std::list<Order*>, cmp>`. -/
abbrev SideBook := List (Int × List Nat)

/-- The `OrderBook` state: pool, both side books and the id → handle index. -/
structure OrderBook where
  pool : MemoryPool
  bids : SideBook
  asks : SideBook
  order_lookup : List (Nat × Nat)

/-- `order_lookup.find(id)` on the association list. -/
def lookupFind : List (Nat × Nat) → Nat → Option Nat
  | [], _ => none
  | (k, v) :: rest, id => if k = id then some v else lookupFind rest id

/-- `order_lookup[id] = h`: overwrite the entry if the key is present,
otherwise append a fresh entry. -/
def lookupInsert : List (Nat × Nat) → Nat → Nat → List (Nat × Nat)
  | [], k, v => [(k, v)]
  | (k', v') :: rest, k, v =>
    if k' = k then (k, v) :: rest else (k', v') :: lookupInsert rest k v

/-- `order_lookup.erase(id)`: drop the (first) entry with the given key. -/
def lookupErase : List (Nat × Nat) → Nat → List (Nat × Nat)
  | [], _ => []
  | (k, v) :: rest, id => if k = id then rest else (k, v) :: lookupErase rest id

/-- `bids[price].push_back(h)` on a `std::map` ordered by `std::greater`:
append to the FIFO of the level with this price, creating the level at its
ordered position if absent. -/
def insertBid (p : Int) (h : Nat) : SideBook → SideBook
  | [] => [(p, [h])]
  | (q, fifo) :: rest =>
    if p > q then (p, [h]) :: (q, fifo) :: rest
    else if p = q then (q, fifo ++ [h]) :: rest
    else (q, fifo) :: insertBid p h rest

/-- `asks[price].push_back(h)` on a `std::map` ordered by `std::less`. -/
def insertAsk (p : Int) (h : Nat) : SideBook → SideBook
  | [] => [(p, [h])]
  | (q, fifo) :: rest =>
    if p < q then (p, [h]) :: (q, fifo) :: rest
    else if p = q then (q, fifo ++ [h]) :: rest
    else (q, fifo) :: insertAsk p h rest

/-- Body of `OrderBook::remove_order_from_book` for one side:
`side.find(price)`, then `order_list.remove(handle)` (which removes every
element equal to `handle`), then erase the level if its list became empty.
If the price key is absent nothing changes. -/
def removeHandleAtPrice (p : Int) (h : Nat) : SideBook → SideBook
  | [] => []
  | (q, fifo) :: rest =>
    if q = p then
      let fifo' := fifo.filter (fun x => x ≠ h)
      if fifo'.isEmpty then rest else (q, fifo') :: rest
    else (q, fifo) :: removeHandleAtPrice p h rest

/-- `OrderBook::remove_order_from_book(order)`: dispatch on the side stored
in the order record. -/
def remove_order_from_book (o : Order) (h : Nat) (b : OrderBook) : OrderBook :=
  if o.is_buy then { b with bids := removeHandleAtPrice o.price h b.bids }
  else { b with asks := removeHandleAtPrice o.price h b.asks }

/-- One iteration of the `while` loop in `OrderBook::try_match`.
Returns `none` exactly when the loop exits (a side book empty, best prices
uncrossed, or a best level with an empty FIFO), otherwise the mutated book
and the emitted trade event. -/
def matchStep (b : OrderBook) : Option (OrderBook × Trade) :=
  match b.bids, b.asks with
  | (bp, bfifo) :: bidsRest, (ap, afifo) :: asksRest =>
    if bp < ap then none
    else
      match bfifo, afifo with
      | [], _ => none
      | _, [] => none
      | bh :: btail, ah :: atail =>
        let bo := readSlot b.pool bh
        let ao := readSlot b.pool ah
        let matchPrice :=
          if bo.timestamp_ns < ao.timestamp_ns then bo.price else ao.price
        let matchQty := min bo.quantity ao.quantity
        let pool1 := writeSlot b.pool bh { bo with quantity := bo.quantity - matchQty }
        let a1 := readSlot pool1 ah
        let pool2 := writeSlot pool1 ah { a1 with quantity := a1.quantity - matchQty }
        let bidFilled := (readSlot pool2 bh).quantity = 0
        let askFilled := (readSlot pool2 ah).quantity = 0
        let bfifo1 := if bidFilled then btail else bh :: btail
        let lookup1 :=
          if bidFilled then lookupErase b.order_lookup bo.order_id else b.order_lookup
        let free1 := if bidFilled then bh :: b.pool.free_list else b.pool.free_list
        let afifo1 := if askFilled then atail else ah :: atail
        let lookup2 := if askFilled then lookupErase lookup1 ao.order_id else lookup1
        let free2 := if askFilled then ah :: free1 else free1
        let bids' := if bfifo1.isEmpty then bidsRest else (bp, bfifo1) :: bidsRest
        let asks' := if afifo1.isEmpty then asksRest else (ap, afifo1) :: asksRest
        some ({ pool := { slots := pool2.slots, free_list := free2 },
                bids := bids', asks := asks', order_lookup := lookup2 },
              ⟨matchQty, matchPrice, bo.order_id, ao.order_id⟩)
  | _, _ => none

/-- Number of orders resting in the book's FIFOs (both sides). -/
def fifoCount (b : OrderBook) : Nat :=
  ((b.bids.map fun lv => lv.2.length).sum) + ((b.asks.map fun lv => lv.2.length).sum)

/-- The `while` loop of `try_match`, with explicit fuel; trades are
returned in emission order. -/
def tryMatchFuel : Nat → OrderBook → OrderBook × List Trade
  | 0, b => (b, [])
  | n + 1, b =>
    match matchStep b with
    | none => (b, [])
    | some (b', t) =>
      let r := tryMatchFuel n b'
      (r.1, t :: r.2)

/-- `OrderBook::try_match()`.  Fuel equal to the number of resting orders
suffices: each iteration removes at least one order from a FIFO
(see `matchStep_fifoCount_lt` and `matchStep_tryMatchFuel_eq_none`). -/
def try_match (b : OrderBook) : OrderBook × List Trade :=
  tryMatchFuel (fifoCount b) b

/-- `OrderBook::add_order(order)`.  `now` is the current clock reading
(`get_timestamp_ns()`).  Returns the new book, the trades emitted by the
matching loop, and `some msg` when the pool throws (in which case the book
is returned unchanged and no trades are emitted). -/
def add_order (now : Nat) (o : Order) (b : OrderBook) :
    OrderBook × List Trade × Option String :=
  match b.pool.free_list with
  | [] => (b, [], some "Memory pool exhausted")
  | h :: rest =>
    let o' := if o.timestamp_ns = 0 then { o with timestamp_ns := now } else o
    let pool' : MemoryPool := { slots := Function.update b.pool.slots h o', free_list := rest }
    let b1 : OrderBook :=
      { pool := pool'
        bids := if o'.is_buy then insertBid o'.price h b.bids else b.bids
        asks := if o'.is_buy then b.asks else insertAsk o'.price h b.asks
        order_lookup := lookupInsert b.order_lookup o'.order_id h }
    let r := try_match b1
    (r.1, r.2, none)

/-- `OrderBook::cancel_order(id)`.  The `Bool` is the C++ return value. -/
def cancel_order (id : Nat) (b : OrderBook) : OrderBook × Bool :=
  match lookupFind b.order_lookup id with
  | none => (b, false)
  | some h =>
    let o := readSlot b.pool h
    let b1 := remove_order_from_book o h b
    ({ b1 with
        pool := { slots := b1.pool.slots, free_list := h :: b1.pool.free_list }
        order_lookup := lookupErase b1.order_lookup id },
     true)

/-- `OrderBook::amend_order(id, new_price, new_quantity)`.  `now` is the
clock reading used for the fresh timestamp on the price-change path.
Returns the book, the trades emitted (only the cancel+add path can trade),
the pool-exhaustion error of the internal add if any, and the `Bool` the
C++ function returns. -/
def amend_order (now : Nat) (id : Nat) (new_price : Int) (new_quantity : Nat)
    (b : OrderBook) : OrderBook × List Trade × Option String × Bool :=
  match lookupFind b.order_lookup id with
  | none => (b, [], none, false)
  | some h =>
    let o := readSlot b.pool h
    if o.price ≠ new_price then
      let amended : Order :=
        { o with price := new_price, quantity := new_quantity, timestamp_ns := now }
      let b1 := (cancel_order id b).1
      let r := add_order now amended b1
      (r.1, r.2.1, r.2.2, true)
    else
      ({ b with pool := writeSlot b.pool h { o with quantity := new_quantity } },
       [], none, true)

/-- `uint64_t` modulus for the snapshot's running level total. -/
def UINT64_MOD : Nat := 2 ^ 64

/-- The inner loop of `get_snapshot` at one level: sum the remaining
quantities of the orders in the FIFO into a `uint64_t` accumulator. -/
def levelTotal (p : MemoryPool) (fifo : List Nat) : Nat :=
  (fifo.map fun h => (readSlot p h).quantity).sum % UINT64_MOD

/-- `OrderBook::get_snapshot(depth, bids_out, asks_out)`.  The method is
`const`: the book component of the result is the (unchanged) receiver.
`bids_prev`/`asks_prev` are the contents of the caller's output vectors
before the call; the function clears both before filling them. -/
def get_snapshot (b : OrderBook) (depth : Nat)
    (bids_prev asks_prev : List PriceLevel) :
    OrderBook × List PriceLevel × List PriceLevel :=
  let bids_out : List PriceLevel := []
  let asks_out : List PriceLevel := []
  let bids_out := bids_out ++ (b.bids.take depth).map fun lv =>
    ⟨lv.1, levelTotal b.pool lv.2⟩
  let asks_out := asks_out ++ (b.asks.take depth).map fun lv =>
    ⟨lv.1, levelTotal b.pool lv.2⟩
  (b, bids_out, asks_out)

/-! ### General helper lemmas -/

/-- If the loop guard already fails, the matching loop is a no-op for any fuel. -/
theorem tryMatchFuel_of_none {b : OrderBook} (h : matchStep b = none) :
    ∀ n, tryMatchFuel n b = (b, [])
  | 0 => rfl
  | n + 1 => by simp [tryMatchFuel, h]

/-- Inserting a key into the identity index makes it findable. -/
theorem lookupFind_insert_self (m : List (Nat × Nat)) (k v : Nat) :
    lookupFind (lookupInsert m k v) k = some v := by
  induction m with
  | nil => simp [lookupInsert, lookupFind]
  | cons kv rest ih =>
    by_cases hk : kv.1 = k
    · simp [lookupInsert, hk, lookupFind]
    · simpa [lookupInsert, hk, lookupFind] using ih

/-- If a key is absent, erasing it after inserting it restores the index. -/
theorem lookupErase_insert (m : List (Nat × Nat)) (k v : Nat)
    (habs : lookupFind m k = none) :
    lookupErase (lookupInsert m k v) k = m := by
  induction m with
  | nil => simp [lookupInsert, lookupErase]
  | cons kv rest ih =>
    obtain ⟨k', v'⟩ := kv
    by_cases hk : k' = k
    · simp [lookupFind, hk] at habs
    · simp only [lookupFind, if_neg hk] at habs
      simp [lookupInsert, lookupErase, hk, ih habs]

/-- `push` places the handle in the FIFO of its price level (bid side). -/
theorem insertBid_mem_self (p : Int) (h : Nat) (ls : SideBook) :
    ∃ lv ∈ insertBid p h ls, lv.1 = p ∧ h ∈ lv.2 := by
  induction ls with
  | nil => exact ⟨(p, [h]), by simp [insertBid]⟩
  | cons qf rest ih =>
    obtain ⟨q, fifo⟩ := qf
    by_cases h1 : p > q
    · exact ⟨(p, [h]), by simp [insertBid, h1]⟩
    · by_cases h2 : p = q
      · refine ⟨(q, fifo ++ [h]), ?_, h2.symm, by simp⟩
        simp [insertBid, h1, h2]
      · obtain ⟨lv, hmem, hp, hh⟩ := ih
        exact ⟨lv, by simp [insertBid, h1, h2, hmem], hp, hh⟩

/-! ### Claim theorems: error handling and frame properties -/

/-- Book whose pool free list is empty (all slots notionally in use). -/
def bookNoCapacity : OrderBook :=
  { pool := { slots := fun _ => default, free_list := [] }
    bids := [], asks := [], order_lookup := [] }

/-- C7: when the arena free set is empty, `add_order` fails with the
pool-exhaustion error surfaced to the caller and commits no state at all:
the returned book (identity index, both side books, free set) is exactly
the argument, and no trades are emitted. -/
theorem add_order_pool_exhausted (now : Nat) (o : Order) (b : OrderBook)
    (hfree : b.pool.free_list = []) :
    add_order now o b = (b, [], some "Memory pool exhausted") := by
  unfold add_order
  rw [hfree]

/-- Witness for C7 at a concrete book with an empty free list. -/
theorem add_order_pool_exhausted_witness :
    bookNoCapacity.pool.free_list = [] ∧
    add_order 5 ⟨1, true, 100, 10, 1⟩ bookNoCapacity =
      (bookNoCapacity, [], some "Memory pool exhausted") :=
  ⟨rfl, add_order_pool_exhausted 5 ⟨1, true, 100, 10, 1⟩ bookNoCapacity rfl⟩

/-- C10: `get_snapshot` clears both caller-supplied output vectors before
filling them, so its result depends only on the book and the depth, never
on the vectors' prior contents. -/
theorem get_snapshot_independent_of_prev (b : OrderBook) (depth : Nat)
    (p1 a1 p2 a2 : List PriceLevel) :
    get_snapshot b depth p1 a1 = get_snapshot b depth p2 a2 := rfl

/-- C6: an amend whose `new_price` equals the order's current price updates
only that order's quantity.  The side books (hence the FIFO position), the
identity index, the free list, every other arena slot, and the order's own
id, side, price and timestamp are unchanged, no trade is emitted, and the
matching loop is not invoked (the trade list is empty even when the
quantity increases). -/
theorem amend_order_in_place_frame (now id new_quantity : Nat) (b : OrderBook)
    (h : Nat) (hfind : lookupFind b.order_lookup id = some h)
    (new_price : Int) (hprice : (readSlot b.pool h).price = new_price) :
    (amend_order now id new_price new_quantity b).1.bids = b.bids ∧
    (amend_order now id new_price new_quantity b).1.asks = b.asks ∧
    (amend_order now id new_price new_quantity b).1.order_lookup = b.order_lookup ∧
    (amend_order now id new_price new_quantity b).1.pool.free_list = b.pool.free_list ∧
    (∀ h', h' ≠ h →
      readSlot (amend_order now id new_price new_quantity b).1.pool h' =
        readSlot b.pool h') ∧
    readSlot (amend_order now id new_price new_quantity b).1.pool h =
      { readSlot b.pool h with quantity := new_quantity } ∧
    (amend_order now id new_price new_quantity b).2.1 = [] ∧
    (amend_order now id new_price new_quantity b).2.2.1 = none ∧
    (amend_order now id new_price new_quantity b).2.2.2 = true := by
  have hstep : amend_order now id new_price new_quantity b =
      ({ b with pool := writeSlot b.pool h ({ readSlot b.pool h with quantity := new_quantity }) }, [], none, true) := by
    unfold amend_order
    rw [hfind]
    simp [hprice]
  rw [hstep]
  refine ⟨rfl, rfl, rfl, rfl, ?_, ?_, rfl, rfl, rfl⟩
  · intro h' hne
    simp [readSlot, writeSlot, Function.update_noteq hne]
  · simp [readSlot, writeSlot]

/-- Concrete book used to exercise the in-place amend path: one resting
buy order (id 7, price 100, quantity 5, handle 0). -/
def bookOneBuy : OrderBook :=
  { pool := { slots := fun h => if h = 0 then ⟨7, true, 100, 5, 1⟩ else default
              free_list := [1] }
    bids := [(100, [0])], asks := [], order_lookup := [(7, 0)] }

/-- Witness for C6 at a concrete book. -/
theorem amend_order_in_place_frame_witness :
    (amend_order 9 7 100 110 bookOneBuy).1.bids = bookOneBuy.bids ∧
    (amend_order 9 7 100 110 bookOneBuy).1.asks = bookOneBuy.asks ∧
    (amend_order 9 7 100 110 bookOneBuy).1.order_lookup = bookOneBuy.order_lookup ∧
    (amend_order 9 7 100 110 bookOneBuy).1.pool.free_list = bookOneBuy.pool.free_list ∧
    readSlot (amend_order 9 7 100 110 bookOneBuy).1.pool 5 =
      readSlot bookOneBuy.pool 5 ∧
    readSlot (amend_order 9 7 100 110 bookOneBuy).1.pool 0 =
      { readSlot bookOneBuy.pool 0 with quantity := 110 } ∧
    (amend_order 9 7 100 110 bookOneBuy).2.1 = [] ∧
    (amend_order 9 7 100 110 bookOneBuy).2.2.1 = none ∧
    (amend_order 9 7 100 110 bookOneBuy).2.2.2 = true := by
  have hfull := amend_order_in_place_frame 9 7 110 bookOneBuy 0 rfl 100 rfl
  exact ⟨hfull.1, hfull.2.1, hfull.2.2.1, hfull.2.2.2.1,
    hfull.2.2.2.2.1 5 (by decide), hfull.2.2.2.2.2.1, hfull.2.2.2.2.2.2.1,
    hfull.2.2.2.2.2.2.2.1, hfull.2.2.2.2.2.2.2.2⟩

/-! ### C1: trade price in the cross-resolution loop -/

/-- Crossed book with one buy (id 10, price 101, handle 0) and one sell
(id 20, price 100, handle 1) carrying the SAME arrival timestamp. -/
def bookTiedTs : OrderBook :=
  { pool := { slots := (fun h =>
                        if h = 0 then ⟨10, true, 101, 5, 7⟩
                        else if h = 1 then ⟨20, false, 100, 5, 7⟩ else default)
              free_list := [] }
    bids := [(101, [0])], asks := [(100, [1])]
    order_lookup := [(10, 0), (20, 1)] }

/-- C1 counterexample: with equal head timestamps the loop trades at the
ASK's price (100), not the bid's price (101) as the claim states.  The
source ternary `bid->ts < ask->ts ? bid->price : ask->price` falls to the
ask branch on ties. -/
theorem matchStep_tie_uses_ask_price_cex :
    (readSlot bookTiedTs.pool 0).timestamp_ns
        = (readSlot bookTiedTs.pool 1).timestamp_ns ∧
    (readSlot bookTiedTs.pool 0).price = 101 ∧
    (readSlot bookTiedTs.pool 1).price = 100 ∧
    (matchStep bookTiedTs).map (fun r => r.2.price) = some 100 ∧
    (100 : Int) ≠ 101 := by
  refine ⟨rfl, rfl, rfl, ?_, by decide⟩
  rfl

/-- C1 amended: for every match between the head bid order and the head ask
order, the trade price is the price of whichever side has the strictly
earlier arrival timestamp; when the two timestamps are EQUAL the ask's
price is used (the source ternary tests `bid->ts < ask->ts`). -/
theorem matchStep_trade_price (pool : MemoryPool) (lk : List (Nat × Nat))
    (bp ap : Int) (bh ah : Nat) (btail atail : List Nat) (br ar : SideBook)
    (hcross : ¬ bp < ap) (b' : OrderBook) (t : Trade)
    (hstep : matchStep ⟨pool, (bp, bh :: btail) :: br, (ap, ah :: atail) :: ar, lk⟩
      = some (b', t)) :
    ((readSlot pool bh).timestamp_ns < (readSlot pool ah).timestamp_ns →
      t.price = (readSlot pool bh).price) ∧
    ((readSlot pool ah).timestamp_ns < (readSlot pool bh).timestamp_ns →
      t.price = (readSlot pool ah).price) ∧
    ((readSlot pool bh).timestamp_ns = (readSlot pool ah).timestamp_ns →
      t.price = (readSlot pool ah).price) := by
  simp only [matchStep, if_neg hcross, Option.some.injEq, Prod.mk.injEq] at hstep
  obtain ⟨-, ht⟩ := hstep
  refine ⟨?_, ?_, ?_⟩ <;> intro hts
  · rw [← ht]; simp [hts]
  · rw [← ht]; simp [Nat.not_lt.mpr (Nat.le_of_lt hts)]
  · rw [← ht]; simp [hts]

/-- Witness for C1's amended theorem, at a crossed book where the bid
arrived strictly earlier. -/
def bookBidEarlier : OrderBook :=
  { pool := { slots := (fun h =>
                        if h = 0 then ⟨10, true, 101, 5, 3⟩
                        else if h = 1 then ⟨20, false, 100, 5, 7⟩ else default)
              free_list := [] }
    bids := [(101, [0])], asks := [(100, [1])]
    order_lookup := [(10, 0), (20, 1)] }

/-- Witness: the amended trade-price theorem applied at `bookBidEarlier`. -/
theorem matchStep_trade_price_witness :
    (⟨5, 101, 10, 20⟩ : Trade).price = (readSlot bookBidEarlier.pool 0).price :=
  (matchStep_trade_price bookBidEarlier.pool bookBidEarlier.order_lookup
    101 100 0 1 [] [] [] [] (by decide)
    ⟨{ slots := Function.update (Function.update bookBidEarlier.pool.slots 0
          ⟨10, true, 101, 0, 3⟩) 1 ⟨20, false, 100, 0, 7⟩
       free_list := [1, 0] }, [], [], []⟩
    ⟨5, 101, 10, 20⟩ (by rfl)).1 (by decide)

/-! ### C3: zero-quantity orders are not rejected by add_order -/

/-- If the ask side book is empty the matching loop exits immediately. -/
theorem matchStep_of_asks_nil {b : OrderBook} (h : b.asks = []) :
    matchStep b = none := by
  unfold matchStep
  rw [h]
  rcases b.bids with _ | ⟨⟨bp, bf⟩, rest⟩ <;> rfl

/-- If the bid side book is empty the matching loop exits immediately. -/
theorem matchStep_of_bids_nil {b : OrderBook} (h : b.bids = []) :
    matchStep b = none := by
  unfold matchStep
  rw [h]

/-- The book after steps 1–2 of `add_order` (allocate the handle, copy the
input, fill in a zero timestamp, index insert, side-book push), before the
matching loop runs. -/
def add_insert (now : Nat) (o : Order) (h : Nat) (rest : List Nat)
    (b : OrderBook) : OrderBook :=
  let o' := if o.timestamp_ns = 0 then { o with timestamp_ns := now } else o
  { pool := { slots := Function.update b.pool.slots h o', free_list := rest }
    bids := if o'.is_buy then insertBid o'.price h b.bids else b.bids
    asks := if o'.is_buy then b.asks else insertAsk o'.price h b.asks
    order_lookup := lookupInsert b.order_lookup o'.order_id h }

/-- `add_order` with a nonempty free list is exactly: insert, then match. -/
theorem add_order_eq_insert (now : Nat) (o : Order) (b : OrderBook)
    (h : Nat) (rest : List Nat) (hfree : b.pool.free_list = h :: rest) :
    add_order now o b =
      ((try_match (add_insert now o h rest b)).1,
       (try_match (add_insert now o h rest b)).2, none) := by
  unfold add_order add_insert
  rw [hfree]

/-- Empty book with a single free arena slot. -/
def bookEmptyOneFree : OrderBook :=
  { pool := { slots := fun _ => default, free_list := [0] }
    bids := [], asks := [], order_lookup := [] }

/-- C3 counterexample: the claim says a zero-quantity order is rejected at
step 1 and never appears in the book; in fact adding buy(id 5, qty 0) to
the empty book succeeds (no error) and the order appears in the bid FIFO,
the identity index and the arena, with quantity zero. -/
theorem add_order_zero_qty_cex :
    (add_order 3 ⟨5, true, 100, 0, 2⟩ bookEmptyOneFree).1.bids = [(100, [0])] ∧
    lookupFind (add_order 3 ⟨5, true, 100, 0, 2⟩ bookEmptyOneFree).1.order_lookup 5
      = some 0 ∧
    (readSlot (add_order 3 ⟨5, true, 100, 0, 2⟩ bookEmptyOneFree).1.pool 0).quantity
      = 0 ∧
    (add_order 3 ⟨5, true, 100, 0, 2⟩ bookEmptyOneFree).2.2 = none :=
  ⟨rfl, rfl, rfl, rfl⟩

/-! ### C2 counterexample: in-place amend to quantity zero -/

/-- C2 counterexample: after the public operation
`amend_order(7, 100.0, 0)` on a book whose order 7 rests at price 100,
the order is still live (still in the bid FIFO and the identity index) but
its remaining quantity is 0, violating P4. -/
theorem amend_order_zero_qty_live_cex :
    (amend_order 9 7 100 0 bookOneBuy).2.2.2 = true ∧
    (amend_order 9 7 100 0 bookOneBuy).1.bids = [(100, [0])] ∧
    lookupFind (amend_order 9 7 100 0 bookOneBuy).1.order_lookup 7 = some 0 ∧
    (readSlot (amend_order 9 7 100 0 bookOneBuy).1.pool 0).quantity = 0 :=
  ⟨rfl, rfl, rfl, rfl⟩

/-! ### C5: termination of the cross-resolution loop -/

@[simp] theorem readSlot_writeSlot_same (p : MemoryPool) (h : Nat) (o : Order) :
    readSlot (writeSlot p h o) h = o := by
  simp [readSlot, writeSlot]

theorem readSlot_writeSlot_ne (p : MemoryPool) {h h' : Nat} (o : Order)
    (hne : h' ≠ h) : readSlot (writeSlot p h o) h' = readSlot p h' := by
  simp [readSlot, writeSlot, Function.update_noteq hne]

/-- Each successful iteration of the matching loop strictly decreases the
number of orders resting in the book: the order with the smaller remaining
quantity (both, on a tie) is fully consumed and popped from its FIFO. -/
theorem matchStep_fifoCount_lt {b b' : OrderBook} {t : Trade}
    (hstep : matchStep b = some (b', t)) : fifoCount b' < fifoCount b := by
  obtain ⟨pool, bids, asks, lk⟩ := b
  rcases bids with _ | ⟨⟨bp, bfifo⟩, br⟩
  · exact absurd hstep (by simp [matchStep])
  rcases asks with _ | ⟨⟨ap, afifo⟩, ar⟩
  · exact absurd hstep (by simp [matchStep])
  by_cases hcross : bp < ap
  · exact absurd hstep (by simp [matchStep, hcross])
  rcases bfifo with _ | ⟨bh, btail⟩
  · exact absurd hstep (by simp [matchStep, hcross])
  rcases afifo with _ | ⟨ah, atail⟩
  · exact absurd hstep (by simp [matchStep, hcross])
  simp only [matchStep, if_neg hcross, Option.some.injEq, Prod.mk.injEq] at hstep
  obtain ⟨hb', -⟩ := hstep
  subst hb'
  by_cases hba : ah = bh
  · subst hba
    simp only [readSlot_writeSlot_same, fifoCount]
    split_ifs <;> simp_all [List.isEmpty_iff] <;> omega
  · simp only [readSlot_writeSlot_same, readSlot_writeSlot_ne _ _ hba,
      readSlot_writeSlot_ne _ _ (fun hc => hba hc.symm), fifoCount]
    split_ifs <;> simp_all [List.isEmpty_iff] <;> omega

/-- A book with no resting orders cannot match. -/
theorem fifoCount_zero_matchStep {b : OrderBook} (h : fifoCount b = 0) :
    matchStep b = none := by
  obtain ⟨pool, bids, asks, lk⟩ := b
  rcases bids with _ | ⟨⟨bp, bfifo⟩, br⟩
  · simp [matchStep]
  rcases asks with _ | ⟨⟨ap, afifo⟩, ar⟩
  · simp [matchStep]
  rcases bfifo with _ | ⟨bh, btail⟩
  · simp [matchStep]
  · exfalso
    simp [fifoCount] at h

/-- Fuel equal to (an upper bound on) the number of resting orders drives
the matching loop to a state where the loop guard fails. -/
theorem matchStep_tryMatchFuel_none :
    ∀ (n : Nat) (b : OrderBook), fifoCount b ≤ n →
      matchStep (tryMatchFuel n b).1 = none := by
  intro n
  induction n with
  | zero =>
    intro b hb
    simpa [tryMatchFuel] using fifoCount_zero_matchStep (Nat.le_zero.mp hb)
  | succ n ih =>
    intro b hb
    cases hs : matchStep b with
    | none => simpa [tryMatchFuel, hs] using hs
    | some r =>
      obtain ⟨b', t⟩ := r
      have hlt := matchStep_fifoCount_lt hs
      simp only [tryMatchFuel, hs]
      exact ih b' (by omega)

/-- The matching loop emits at most one trade per unit of fuel. -/
theorem tryMatchFuel_trades_length :
    ∀ (n : Nat) (b : OrderBook), (tryMatchFuel n b).2.length ≤ n := by
  intro n
  induction n with
  | zero => intro b; simp [tryMatchFuel]
  | succ n ih =>
    intro b
    cases hs : matchStep b with
    | none => simp [tryMatchFuel, hs]
    | some r =>
      simp only [tryMatchFuel, hs, List.length_cons]
      exact Nat.succ_le_succ (ih r.1)

/-- C5: the cross-resolution loop terminates.  Every iteration that does
not exit at the empty/uncrossed check fully consumes (removes from the
book) at least one live order, so `try_match` — run with fuel equal to the
number of orders resting in the book — reaches a state where the loop
guard fails, and the number of iterations (= emitted trades) is bounded by
the number of live orders. -/
theorem try_match_terminates (b : OrderBook) :
    (∀ b' t, matchStep b = some (b', t) → fifoCount b' < fifoCount b) ∧
    matchStep (try_match b).1 = none ∧
    (try_match b).2.length ≤ fifoCount b := by
  refine ⟨fun b' t h => matchStep_fifoCount_lt h, ?_, ?_⟩
  · exact matchStep_tryMatchFuel_none (fifoCount b) b le_rfl
  · exact tryMatchFuel_trades_length (fifoCount b) b

/-- Witness for C5 at the concrete crossed book `bookTiedTs`: one
iteration consumes both orders, and the loop halts. -/
theorem try_match_terminates_witness :
    fifoCount ⟨{ slots := Function.update (Function.update bookTiedTs.pool.slots 0
                   ⟨10, true, 101, 0, 7⟩) 1 ⟨20, false, 100, 0, 7⟩
                 free_list := [1, 0] }, [], [], []⟩ < fifoCount bookTiedTs ∧
    matchStep (try_match bookTiedTs).1 = none ∧
    (try_match bookTiedTs).2.length ≤ fifoCount bookTiedTs :=
  ⟨(try_match_terminates bookTiedTs).1
      ⟨{ slots := Function.update (Function.update bookTiedTs.pool.slots 0
                     ⟨10, true, 101, 0, 7⟩) 1 ⟨20, false, 100, 0, 7⟩
         free_list := [1, 0] }, [], [], []⟩
      ⟨5, 100, 10, 20⟩ (by rfl),
   (try_match_terminates bookTiedTs).2.1,
   (try_match_terminates bookTiedTs).2.2⟩

/-! ### C4: the book is strictly uncrossed on exit from every public op -/

/-- P2: every bid price is strictly below every ask price. -/
def Uncrossed (b : OrderBook) : Prop :=
  ∀ pb ∈ b.bids.map Prod.fst, ∀ pa ∈ b.asks.map Prod.fst, pb < pa

/-- The bid side book iterates in strictly descending price order
(`std::greater` comparator; keys distinct). -/
def BidsSorted (ls : SideBook) : Prop :=
  ls.Pairwise (fun x y => y.1 < x.1)

/-- The ask side book iterates in strictly ascending price order
(`std::less` comparator; keys distinct). -/
def AsksSorted (ls : SideBook) : Prop :=
  ls.Pairwise (fun x y => x.1 < y.1)

/-- P3: no price level has an empty FIFO. -/
def LevelsNonempty (ls : SideBook) : Prop := ∀ lv ∈ ls, lv.2 ≠ []

instance (b : OrderBook) : Decidable (Uncrossed b) := by
  unfold Uncrossed; infer_instance

instance (ls : SideBook) : Decidable (BidsSorted ls) := by
  unfold BidsSorted; infer_instance

instance (ls : SideBook) : Decidable (AsksSorted ls) := by
  unfold AsksSorted; infer_instance

instance (ls : SideBook) : Decidable (LevelsNonempty ls) := by
  unfold LevelsNonempty; infer_instance

/-- A price-keyed pairwise property survives any rebuild of the side book
whose price sequence is a sublist of the original one. -/
theorem pairwise_keys_of_sublist {r : Int → Int → Prop} {ls ls' : SideBook}
    (hsub : (ls'.map Prod.fst).Sublist (ls.map Prod.fst))
    (hs : ls.Pairwise (fun x y => r x.1 y.1)) :
    ls'.Pairwise (fun x y => r x.1 y.1) := by
  rw [← List.pairwise_map (f := Prod.fst)] at hs ⊢
  exact hs.sublist hsub

/-- Being uncrossed survives any rebuild of the two side books whose price
sequences are sublists of the original ones. -/
theorem uncrossed_of_sublists {b b' : OrderBook}
    (hb : (b'.bids.map Prod.fst).Sublist (b.bids.map Prod.fst))
    (ha : (b'.asks.map Prod.fst).Sublist (b.asks.map Prod.fst))
    (hU : Uncrossed b) : Uncrossed b' :=
  fun pb hpb pa hpa => hU pb (hb.subset hpb) pa (ha.subset hpa)

/-- Every level produced by `insertBid` carries either the inserted price
or a price already present. -/
theorem insertBid_price_mem {p : Int} {h : Nat} :
    ∀ {ls : SideBook} {lv : Int × List Nat}, lv ∈ insertBid p h ls →
      lv.1 = p ∨ lv.1 ∈ ls.map Prod.fst := by
  intro ls
  induction ls with
  | nil =>
    intro lv hlv
    simp only [insertBid, List.mem_singleton] at hlv
    left; rw [hlv]
  | cons qf rest ih =>
    intro lv hlv
    obtain ⟨q, f⟩ := qf
    by_cases h1 : p > q
    · simp only [insertBid, if_pos h1, List.mem_cons] at hlv
      rcases hlv with h2 | h2 | h2
      · left; rw [h2]
      · right; rw [h2]; simp
      · right; simp only [List.map_cons, List.mem_cons]
        right; exact List.mem_map_of_mem Prod.fst h2
    · by_cases h2 : p = q
      · simp only [insertBid, if_neg h1, if_pos h2, List.mem_cons] at hlv
        rcases hlv with h3 | h3
        · left; rw [h3, ← h2]
        · right; simp only [List.map_cons, List.mem_cons]
          right; exact List.mem_map_of_mem Prod.fst h3
      · simp only [insertBid, if_neg h1, if_neg h2, List.mem_cons] at hlv
        rcases hlv with h3 | h3
        · right; rw [h3]; simp
        · rcases ih h3 with h4 | h4
          · left; exact h4
          · right; simp only [List.map_cons, List.mem_cons]; right; exact h4

/-- Mirror of `insertBid_price_mem` for the ask side. -/
theorem insertAsk_price_mem {p : Int} {h : Nat} :
    ∀ {ls : SideBook} {lv : Int × List Nat}, lv ∈ insertAsk p h ls →
      lv.1 = p ∨ lv.1 ∈ ls.map Prod.fst := by
  intro ls
  induction ls with
  | nil =>
    intro lv hlv
    simp only [insertAsk, List.mem_singleton] at hlv
    left; rw [hlv]
  | cons qf rest ih =>
    intro lv hlv
    obtain ⟨q, f⟩ := qf
    by_cases h1 : p < q
    · simp only [insertAsk, if_pos h1, List.mem_cons] at hlv
      rcases hlv with h2 | h2 | h2
      · left; rw [h2]
      · right; rw [h2]; simp
      · right; simp only [List.map_cons, List.mem_cons]
        right; exact List.mem_map_of_mem Prod.fst h2
    · by_cases h2 : p = q
      · simp only [insertAsk, if_neg h1, if_pos h2, List.mem_cons] at hlv
        rcases hlv with h3 | h3
        · left; rw [h3, ← h2]
        · right; simp only [List.map_cons, List.mem_cons]
          right; exact List.mem_map_of_mem Prod.fst h3
      · simp only [insertAsk, if_neg h1, if_neg h2, List.mem_cons] at hlv
        rcases hlv with h3 | h3
        · right; rw [h3]; simp
        · rcases ih h3 with h4 | h4
          · left; exact h4
          · right; simp only [List.map_cons, List.mem_cons]; right; exact h4

/-- `std::map` insertion keeps the bid book strictly descending. -/
theorem insertBid_sorted {p : Int} {h : Nat} :
    ∀ {ls : SideBook}, BidsSorted ls → BidsSorted (insertBid p h ls) := by
  intro ls
  induction ls with
  | nil => intro; simp [insertBid, BidsSorted]
  | cons qf rest ih =>
    intro hs
    obtain ⟨q, f⟩ := qf
    rw [BidsSorted, List.pairwise_cons] at hs
    obtain ⟨hq, hrest⟩ := hs
    by_cases h1 : p > q
    · rw [BidsSorted, insertBid, if_pos h1, List.pairwise_cons]
      refine ⟨?_, List.Pairwise.cons hq hrest⟩
      intro lv hlv
      rcases List.mem_cons.mp hlv with h2 | h2
      · rw [h2]; exact h1
      · exact lt_trans (hq lv h2) h1
    · by_cases h2 : p = q
      · rw [BidsSorted, insertBid, if_neg h1, if_pos h2, List.pairwise_cons]
        exact ⟨hq, hrest⟩
      · rw [BidsSorted, insertBid, if_neg h1, if_neg h2, List.pairwise_cons]
        refine ⟨?_, ih hrest⟩
        intro lv hlv
        rcases insertBid_price_mem hlv with h3 | h3
        · rw [h3]
          rcases lt_trichotomy p q with h4 | h4 | h4
          · exact h4
          · exact absurd h4 h2
          · exact absurd h4 h1
        · obtain ⟨lv', hlv', heq⟩ := List.mem_map.mp h3
          simpa [heq] using hq lv' hlv'

/-- `std::map` insertion keeps the ask book strictly ascending. -/
theorem insertAsk_sorted {p : Int} {h : Nat} :
    ∀ {ls : SideBook}, AsksSorted ls → AsksSorted (insertAsk p h ls) := by
  intro ls
  induction ls with
  | nil => intro; simp [insertAsk, AsksSorted]
  | cons qf rest ih =>
    intro hs
    obtain ⟨q, f⟩ := qf
    rw [AsksSorted, List.pairwise_cons] at hs
    obtain ⟨hq, hrest⟩ := hs
    by_cases h1 : p < q
    · rw [AsksSorted, insertAsk, if_pos h1, List.pairwise_cons]
      refine ⟨?_, List.Pairwise.cons hq hrest⟩
      intro lv hlv
      rcases List.mem_cons.mp hlv with h2 | h2
      · rw [h2]; exact h1
      · exact lt_trans h1 (hq lv h2)
    · by_cases h2 : p = q
      · rw [AsksSorted, insertAsk, if_neg h1, if_pos h2, List.pairwise_cons]
        exact ⟨hq, hrest⟩
      · rw [AsksSorted, insertAsk, if_neg h1, if_neg h2, List.pairwise_cons]
        refine ⟨?_, ih hrest⟩
        intro lv hlv
        rcases insertAsk_price_mem hlv with h3 | h3
        · rw [h3]
          rcases lt_trichotomy q p with h4 | h4 | h4
          · exact h4
          · exact absurd h4.symm h2
          · exact absurd h4 h1
        · obtain ⟨lv', hlv', heq⟩ := List.mem_map.mp h3
          simpa [heq] using hq lv' hlv'

/-- `insertBid` never creates an empty FIFO. -/
theorem insertBid_nonempty {p : Int} {h : Nat} :
    ∀ {ls : SideBook}, LevelsNonempty ls → LevelsNonempty (insertBid p h ls) := by
  intro ls
  induction ls with
  | nil =>
    intro _ lv hlv
    simp only [insertBid, List.mem_singleton] at hlv
    rw [hlv]; simp
  | cons qf rest ih =>
    intro hne lv hlv
    obtain ⟨q, f⟩ := qf
    by_cases h1 : p > q
    · simp only [insertBid, if_pos h1, List.mem_cons] at hlv
      rcases hlv with h2 | h2 | h2
      · rw [h2]; simp
      · rw [h2]; exact hne _ (by simp)
      · exact hne _ (by simp [h2])
    · by_cases h2 : p = q
      · simp only [insertBid, if_neg h1, if_pos h2, List.mem_cons] at hlv
        rcases hlv with h3 | h3
        · rw [h3]; simp
        · exact hne _ (by simp [h3])
      · simp only [insertBid, if_neg h1, if_neg h2, List.mem_cons] at hlv
        rcases hlv with h3 | h3
        · rw [h3]; exact hne _ (by simp)
        · exact ih (fun x hx => hne _ (by simp [hx])) _ h3

/-- `insertAsk` never creates an empty FIFO. -/
theorem insertAsk_nonempty {p : Int} {h : Nat} :
    ∀ {ls : SideBook}, LevelsNonempty ls → LevelsNonempty (insertAsk p h ls) := by
  intro ls
  induction ls with
  | nil =>
    intro _ lv hlv
    simp only [insertAsk, List.mem_singleton] at hlv
    rw [hlv]; simp
  | cons qf rest ih =>
    intro hne lv hlv
    obtain ⟨q, f⟩ := qf
    by_cases h1 : p < q
    · simp only [insertAsk, if_pos h1, List.mem_cons] at hlv
      rcases hlv with h2 | h2 | h2
      · rw [h2]; simp
      · rw [h2]; exact hne _ (by simp)
      · exact hne _ (by simp [h2])
    · by_cases h2 : p = q
      · simp only [insertAsk, if_neg h1, if_pos h2, List.mem_cons] at hlv
        rcases hlv with h3 | h3
        · rw [h3]; simp
        · exact hne _ (by simp [h3])
      · simp only [insertAsk, if_neg h1, if_neg h2, List.mem_cons] at hlv
        rcases hlv with h3 | h3
        · rw [h3]; exact hne _ (by simp)
        · exact ih (fun x hx => hne _ (by simp [hx])) _ h3

/-- Mid-FIFO removal only shrinks the side book's price sequence. -/
theorem removeHandleAtPrice_keys_sublist (p : Int) (h : Nat) :
    ∀ (ls : SideBook),
      ((removeHandleAtPrice p h ls).map Prod.fst).Sublist (ls.map Prod.fst) := by
  intro ls
  induction ls with
  | nil => simp [removeHandleAtPrice]
  | cons qf rest ih =>
    obtain ⟨q, f⟩ := qf
    by_cases h1 : q = p
    · simp only [removeHandleAtPrice, if_pos h1]
      by_cases h2 : (f.filter (fun x => x ≠ h)).isEmpty
      · rw [if_pos h2]
        exact List.sublist_cons_self q (rest.map Prod.fst)
      · rw [if_neg h2]
        simp only [List.map_cons]
        exact List.Sublist.cons₂ q (List.Sublist.refl _)
    · simp only [removeHandleAtPrice, if_neg h1, List.map_cons]
      exact List.Sublist.cons₂ q ih

/-- Mid-FIFO removal never leaves an empty FIFO behind. -/
theorem removeHandleAtPrice_nonempty {p : Int} {h : Nat} :
    ∀ {ls : SideBook}, LevelsNonempty ls →
      LevelsNonempty (removeHandleAtPrice p h ls) := by
  intro ls
  induction ls with
  | nil => intro hne; simpa [removeHandleAtPrice] using hne
  | cons qf rest ih =>
    intro hne lv hlv
    obtain ⟨q, f⟩ := qf
    by_cases h1 : q = p
    · simp only [removeHandleAtPrice, if_pos h1] at hlv
      by_cases h2 : (f.filter (fun x => x ≠ h)).isEmpty
      · rw [if_pos h2] at hlv
        exact hne _ (by simp [hlv])
      · rw [if_neg h2] at hlv
        rcases List.mem_cons.mp hlv with h3 | h3
        · rw [h3]
          simpa [List.isEmpty_iff] using h2
        · exact hne _ (by simp [h3])
    · simp only [removeHandleAtPrice, if_neg h1, List.mem_cons] at hlv
      rcases hlv with h3 | h3
      · rw [h3]; exact hne _ (by simp)
      · exact ih (fun x hx => hne _ (by simp [hx])) _ h3

/-- Keys of the possibly-dropped head level form a sublist of the original
key sequence. -/
theorem side_keys_sublist (p : Int) (f : List Nat) (rest : SideBook) :
    (((if f.isEmpty then rest else (p, f) :: rest) : SideBook).map Prod.fst).Sublist
      (p :: rest.map Prod.fst) := by
  rcases f with _ | ⟨x, xs⟩
  · simpa using List.sublist_cons_self p (rest.map Prod.fst)
  · simp

/-- Dropping the head level when (and only when) it empties keeps P3. -/
theorem side_nonempty (p : Int) (f : List Nat) (rest : SideBook)
    (hrest : LevelsNonempty rest) :
    LevelsNonempty (if f.isEmpty then rest else (p, f) :: rest) := by
  rcases f with _ | ⟨x, xs⟩
  · simpa using hrest
  · intro lv hlv
    simp only [List.isEmpty_cons, if_neg] at hlv
    rcases List.mem_cons.mp hlv with h | h
    · rw [h]; simp
    · exact hrest _ h

/-- A matching iteration only shrinks each side's price sequence and never
leaves an empty FIFO behind. -/
theorem matchStep_sides {b b' : OrderBook} {t : Trade}
    (hstep : matchStep b = some (b', t)) :
    ((b'.bids.map Prod.fst).Sublist (b.bids.map Prod.fst) ∧
     (b'.asks.map Prod.fst).Sublist (b.asks.map Prod.fst)) ∧
    ((LevelsNonempty b.bids → LevelsNonempty b'.bids) ∧
     (LevelsNonempty b.asks → LevelsNonempty b'.asks)) := by
  obtain ⟨pool, bids, asks, lk⟩ := b
  rcases bids with _ | ⟨⟨bp, bfifo⟩, br⟩
  · exact absurd hstep (by simp [matchStep])
  rcases asks with _ | ⟨⟨ap, afifo⟩, ar⟩
  · exact absurd hstep (by simp [matchStep])
  by_cases hcross : bp < ap
  · exact absurd hstep (by simp [matchStep, hcross])
  rcases bfifo with _ | ⟨bh, btail⟩
  · exact absurd hstep (by simp [matchStep, hcross])
  rcases afifo with _ | ⟨ah, atail⟩
  · exact absurd hstep (by simp [matchStep, hcross])
  simp only [matchStep, if_neg hcross, Option.some.injEq, Prod.mk.injEq] at hstep
  obtain ⟨hb', -⟩ := hstep
  subst hb'
  refine ⟨⟨?_, ?_⟩, ?_, ?_⟩
  · simpa using side_keys_sublist bp _ br
  · simpa using side_keys_sublist ap _ ar
  · intro hne
    exact side_nonempty bp _ br (fun lv hlv => hne lv (by simp [hlv]))
  · intro hne
    exact side_nonempty ap _ ar (fun lv hlv => hne lv (by simp [hlv]))

/-- When the loop guard fails on a well-formed book, the book is strictly
uncrossed: the guard compares the best (maximal bid / minimal ask) prices. -/
theorem matchStep_none_uncrossed {b : OrderBook} (hnone : matchStep b = none)
    (hbs : BidsSorted b.bids) (has : AsksSorted b.asks)
    (hbne : LevelsNonempty b.bids) (hane : LevelsNonempty b.asks) :
    Uncrossed b := by
  obtain ⟨pool, bids, asks, lk⟩ := b
  rcases bids with _ | ⟨⟨bp, bfifo⟩, br⟩
  · intro pb hpb
    simp at hpb
  rcases asks with _ | ⟨⟨ap, afifo⟩, ar⟩
  · intro pb hpb pa hpa
    simp at hpa
  rcases bfifo with _ | ⟨bh, btail⟩
  · exact absurd rfl (hbne (bp, []) (by simp))
  rcases afifo with _ | ⟨ah, atail⟩
  · exact absurd rfl (hane (ap, []) (by simp))
  by_cases hcross : bp < ap
  · rw [BidsSorted, List.pairwise_cons] at hbs
    rw [AsksSorted, List.pairwise_cons] at has
    intro pb hpb pa hpa
    simp only [List.map_cons, List.mem_cons] at hpb hpa
    have hpb' : pb ≤ bp := by
      rcases hpb with h | h
      · exact le_of_eq h
      · obtain ⟨lv, hlv, heq⟩ := List.mem_map.mp h
        have h5 : lv.1 < bp := by simpa using hbs.1 lv hlv
        rw [heq] at h5
        exact le_of_lt h5
    have hpa' : ap ≤ pa := by
      rcases hpa with h | h
      · exact le_of_eq h.symm
      · obtain ⟨lv, hlv, heq⟩ := List.mem_map.mp h
        have h5 : ap < lv.1 := by simpa using has.1 lv hlv
        rw [heq] at h5
        exact le_of_lt h5
    exact lt_of_le_of_lt hpb' (lt_of_lt_of_le hcross hpa')
  · exact absurd hnone (by simp [matchStep, hcross])

/-- The whole matching loop only shrinks each side's price sequence and
preserves P3. -/
theorem tryMatchFuel_sides :
    ∀ (n : Nat) (b : OrderBook),
      (((tryMatchFuel n b).1.bids.map Prod.fst).Sublist (b.bids.map Prod.fst) ∧
       ((tryMatchFuel n b).1.asks.map Prod.fst).Sublist (b.asks.map Prod.fst)) ∧
      ((LevelsNonempty b.bids → LevelsNonempty (tryMatchFuel n b).1.bids) ∧
       (LevelsNonempty b.asks → LevelsNonempty (tryMatchFuel n b).1.asks)) := by
  intro n
  induction n with
  | zero =>
    intro b
    simp only [tryMatchFuel]
    exact ⟨⟨List.Sublist.refl _, List.Sublist.refl _⟩, id, id⟩
  | succ n ih =>
    intro b
    cases hs : matchStep b with
    | none =>
      simp only [tryMatchFuel, hs]
      exact ⟨⟨List.Sublist.refl _, List.Sublist.refl _⟩, id, id⟩
    | some r =>
      obtain ⟨b', t⟩ := r
      have hms := matchStep_sides hs
      have hih := ih b'
      simp only [tryMatchFuel, hs]
      exact ⟨⟨hih.1.1.trans hms.1.1, hih.1.2.trans hms.1.2⟩,
             fun hne => hih.2.1 (hms.2.1 hne), fun hne => hih.2.2 (hms.2.2 hne)⟩

/-- Shrinking the price sequence preserves descending sortedness. -/
theorem bidsSorted_of_keys_sublist {ls ls' : SideBook}
    (hsub : (ls'.map Prod.fst).Sublist (ls.map Prod.fst))
    (hs : BidsSorted ls) : BidsSorted ls' := by
  unfold BidsSorted at hs ⊢
  exact @pairwise_keys_of_sublist (fun x y => y < x) ls ls' hsub hs

/-- Shrinking the price sequence preserves ascending sortedness. -/
theorem asksSorted_of_keys_sublist {ls ls' : SideBook}
    (hsub : (ls'.map Prod.fst).Sublist (ls.map Prod.fst))
    (hs : AsksSorted ls) : AsksSorted ls' := by
  unfold AsksSorted at hs ⊢
  exact @pairwise_keys_of_sublist (fun x y => x < y) ls ls' hsub hs

/-- On a well-formed book the matching loop leaves the book strictly
uncrossed. -/
theorem try_match_uncrossed {b : OrderBook}
    (hbs : BidsSorted b.bids) (has : AsksSorted b.asks)
    (hbne : LevelsNonempty b.bids) (hane : LevelsNonempty b.asks) :
    Uncrossed (try_match b).1 := by
  have hnone := matchStep_tryMatchFuel_none (fifoCount b) b le_rfl
  have hsides := tryMatchFuel_sides (fifoCount b) b
  exact matchStep_none_uncrossed hnone
    (bidsSorted_of_keys_sublist hsides.1.1 hbs)
    (asksSorted_of_keys_sublist hsides.1.2 has)
    (hsides.2.1 hbne) (hsides.2.2 hane)

/-- Steps 1–2 of `add_order` preserve sortedness and P3 on both sides. -/
theorem add_insert_invariants (now : Nat) (o : Order) (h : Nat)
    (rest : List Nat) (b : OrderBook)
    (hbs : BidsSorted b.bids) (has : AsksSorted b.asks)
    (hbne : LevelsNonempty b.bids) (hane : LevelsNonempty b.asks) :
    BidsSorted (add_insert now o h rest b).bids ∧
    AsksSorted (add_insert now o h rest b).asks ∧
    LevelsNonempty (add_insert now o h rest b).bids ∧
    LevelsNonempty (add_insert now o h rest b).asks := by
  simp only [add_insert]
  by_cases hbuy : (if o.timestamp_ns = 0 then { o with timestamp_ns := now } else o).is_buy
  · simp only [hbuy, if_true]
    exact ⟨insertBid_sorted hbs, has, insertBid_nonempty hbne, hane⟩
  · simp only [hbuy, if_false]
    exact ⟨hbs, insertAsk_sorted has, hbne, insertAsk_nonempty hane⟩

/-- `add_order` leaves the book strictly uncrossed (the failure path
returns the book unchanged, so there the hypothesis is used). -/
theorem add_order_uncrossed (now : Nat) (o : Order) (b : OrderBook)
    (hbs : BidsSorted b.bids) (has : AsksSorted b.asks)
    (hbne : LevelsNonempty b.bids) (hane : LevelsNonempty b.asks)
    (hU : Uncrossed b) : Uncrossed (add_order now o b).1 := by
  cases hfree : b.pool.free_list with
  | nil =>
    unfold add_order
    rw [hfree]
    exact hU
  | cons h rest =>
    rw [add_order_eq_insert now o b h rest hfree]
    have hai := add_insert_invariants now o h rest b hbs has hbne hane
    exact try_match_uncrossed hai.1 hai.2.1 hai.2.2.1 hai.2.2.2

/-- `cancel_order` only shrinks each side's price sequence and keeps P3. -/
theorem cancel_order_sides (id : Nat) (b : OrderBook) :
    (((cancel_order id b).1.bids.map Prod.fst).Sublist (b.bids.map Prod.fst) ∧
     ((cancel_order id b).1.asks.map Prod.fst).Sublist (b.asks.map Prod.fst)) ∧
    ((LevelsNonempty b.bids → LevelsNonempty (cancel_order id b).1.bids) ∧
     (LevelsNonempty b.asks → LevelsNonempty (cancel_order id b).1.asks)) := by
  unfold cancel_order
  cases hf : lookupFind b.order_lookup id with
  | none =>
    exact ⟨⟨List.Sublist.refl _, List.Sublist.refl _⟩, fun hne => hne, fun hne => hne⟩
  | some h =>
    unfold remove_order_from_book
    by_cases hbuy : (readSlot b.pool h).is_buy
    · simp only [hbuy, if_true]
      exact ⟨⟨removeHandleAtPrice_keys_sublist _ _ _, List.Sublist.refl _⟩,
             fun hne => removeHandleAtPrice_nonempty hne, fun hne => hne⟩
    · simp only [hbuy, if_false]
      exact ⟨⟨List.Sublist.refl _, removeHandleAtPrice_keys_sublist _ _ _⟩,
             fun hne => hne, fun hne => removeHandleAtPrice_nonempty hne⟩

/-- `amend_order` leaves the book strictly uncrossed: the not-found and
in-place branches do not touch the side books, and the price-change branch
is an internal cancel followed by an add. -/
theorem amend_order_uncrossed (now id : Nat) (np : Int) (nq : Nat)
    (b : OrderBook)
    (hbs : BidsSorted b.bids) (has : AsksSorted b.asks)
    (hbne : LevelsNonempty b.bids) (hane : LevelsNonempty b.asks)
    (hU : Uncrossed b) : Uncrossed (amend_order now id np nq b).1 := by
  unfold amend_order
  cases hf : lookupFind b.order_lookup id with
  | none => exact hU
  | some h =>
    dsimp only
    by_cases hp : (readSlot b.pool h).price ≠ np
    · rw [if_pos hp]
      have hc := cancel_order_sides id b
      exact add_order_uncrossed now _ (cancel_order id b).1
        (bidsSorted_of_keys_sublist hc.1.1 hbs)
        (asksSorted_of_keys_sublist hc.1.2 has)
        (hc.2.1 hbne) (hc.2.2 hane)
        (uncrossed_of_sublists hc.1.1 hc.1.2 hU)
    · rw [if_neg hp]
      exact fun pb hpb pa hpa => hU pb hpb pa hpa

/-- C4: on exit from every public operation — `add_order`, `cancel_order`,
`amend_order`, `get_snapshot` — a well-formed, uncrossed book stays
strictly uncrossed: every bid level price is strictly below every ask
level price (and `add_order` / the cancel+add amend re-establish this via
the matching loop regardless of the incoming order). -/
theorem public_ops_uncrossed (b : OrderBook)
    (now1 : Nat) (o : Order) (id2 now3 id3 : Nat) (np : Int) (nq : Nat)
    (depth : Nat) (pv av : List PriceLevel)
    (hbs : BidsSorted b.bids) (has : AsksSorted b.asks)
    (hbne : LevelsNonempty b.bids) (hane : LevelsNonempty b.asks)
    (hU : Uncrossed b) :
    Uncrossed (add_order now1 o b).1 ∧
    Uncrossed (cancel_order id2 b).1 ∧
    Uncrossed (amend_order now3 id3 np nq b).1 ∧
    Uncrossed (get_snapshot b depth pv av).1 := by
  refine ⟨add_order_uncrossed now1 o b hbs has hbne hane hU, ?_,
    amend_order_uncrossed now3 id3 np nq b hbs has hbne hane hU, hU⟩
  have hc := cancel_order_sides id2 b
  exact uncrossed_of_sublists hc.1.1 hc.1.2 hU

/-- Witness for C4 at the concrete one-order book `bookOneBuy`. -/
theorem public_ops_uncrossed_witness :
    Uncrossed (add_order 3 ⟨2, false, 150, 5, 4⟩ bookOneBuy).1 ∧
    Uncrossed (cancel_order 7 bookOneBuy).1 ∧
    Uncrossed (amend_order 9 7 120 10 bookOneBuy).1 ∧
    Uncrossed (get_snapshot bookOneBuy 2 [] []).1 :=
  public_ops_uncrossed bookOneBuy 3 ⟨2, false, 150, 5, 4⟩ 7 9 7 120 10 2 [] []
    (by decide) (by decide) (by decide) (by decide) (by decide)

/-! ### C2: positivity of live quantities (amended) -/

/-- All handles resting in one side book, in iteration order. -/
def sideHandles (ls : SideBook) : List Nat := (ls.map Prod.snd).join

@[simp] theorem sideHandles_nil : sideHandles [] = [] := rfl

@[simp] theorem sideHandles_cons (p : Int) (f : List Nat) (rest : SideBook) :
    sideHandles ((p, f) :: rest) = f ++ sideHandles rest := rfl

/-- All handles resting in the book (both sides). -/
def allHandles (b : OrderBook) : List Nat :=
  sideHandles b.bids ++ sideHandles b.asks

/-- P4 over the resting orders: every order in a FIFO has positive
remaining quantity. -/
def LiveQtyPos (b : OrderBook) : Prop :=
  ∀ h ∈ allHandles b, 0 < (readSlot b.pool h).quantity

@[simp] theorem readSlot_remk (p : MemoryPool) (fl : List Nat) (h : Nat) :
    readSlot { slots := p.slots, free_list := fl } h = readSlot p h := rfl

theorem sideHandles_dropIf (p : Int) (f : List Nat) (rest : SideBook) :
    sideHandles (if f.isEmpty then rest else (p, f) :: rest)
      = f ++ sideHandles rest := by
  rcases f with _ | ⟨x, xs⟩ <;> simp


/-- A matching iteration only removes resting handles, and — when all
resting handles are distinct — keeps every remaining resting quantity
positive: an order stays in its FIFO only if its decremented quantity is
nonzero. -/
theorem matchStep_liveqty {b b' : OrderBook} {t : Trade}
    (hstep : matchStep b = some (b', t))
    (hnd : (allHandles b).Nodup) (hq : LiveQtyPos b) :
    (allHandles b').Sublist (allHandles b) ∧ LiveQtyPos b' := by
  obtain ⟨pool, bids, asks, lk⟩ := b
  rcases bids with _ | ⟨⟨bp, bfifo⟩, br⟩
  · exact absurd hstep (by simp [matchStep])
  rcases asks with _ | ⟨⟨ap, afifo⟩, ar⟩
  · exact absurd hstep (by simp [matchStep])
  by_cases hcross : bp < ap
  · exact absurd hstep (by simp [matchStep, hcross])
  rcases bfifo with _ | ⟨bh, btail⟩
  · exact absurd hstep (by simp [matchStep, hcross])
  rcases afifo with _ | ⟨ah, atail⟩
  · exact absurd hstep (by simp [matchStep, hcross])
  simp only [matchStep, if_neg hcross, Option.some.injEq, Prod.mk.injEq] at hstep
  obtain ⟨hb', -⟩ := hstep
  subst hb'
  set bo := readSlot pool bh with hbo
  set ao := readSlot pool ah with hao
  set mq := min bo.quantity ao.quantity with hmq
  set pool1 := writeSlot pool bh { bo with quantity := bo.quantity - mq } with hpool1
  set a1 := readSlot pool1 ah with ha1
  set pool2 := writeSlot pool1 ah { a1 with quantity := a1.quantity - mq } with hpool2
  have hA : allHandles ⟨pool, (bp, bh :: btail) :: br, (ap, ah :: atail) :: ar, lk⟩
      = (bh :: (btail ++ sideHandles br)) ++ (ah :: (atail ++ sideHandles ar)) := by
    simp [allHandles]
  unfold LiveQtyPos at hq ⊢
  rw [hA] at hnd hq ⊢
  have hndparts := List.nodup_append.mp hnd
  have hbhT : bh ∉ btail ++ sideHandles br := (List.nodup_cons.mp hndparts.1).1
  have hahT : ah ∉ atail ++ sideHandles ar := (List.nodup_cons.mp hndparts.2.1).1
  have hbhR : bh ∉ ah :: (atail ++ sideHandles ar) :=
    fun hmem => hndparts.2.2 (List.mem_cons_self _ _) hmem
  have hahL : ah ∉ bh :: (btail ++ sideHandles br) :=
    fun hmem => hndparts.2.2 hmem (List.mem_cons_self _ _)
  have hba : ah ≠ bh := by
    intro hc
    exact hbhR (by rw [hc]; exact List.mem_cons_self _ _)
  have hA' : ∀ (fl : List Nat) (lkk : List (Nat × Nat)) (f g : List Nat),
      allHandles ⟨{ slots := pool2.slots, free_list := fl },
          (if f.isEmpty then br else (bp, f) :: br),
          (if g.isEmpty then ar else (ap, g) :: ar), lkk⟩
        = (f ++ sideHandles br) ++ (g ++ sideHandles ar) := by
    intro fl lkk f g
    show sideHandles (if f.isEmpty then br else (bp, f) :: br)
        ++ sideHandles (if g.isEmpty then ar else (ap, g) :: ar)
      = (f ++ sideHandles br) ++ (g ++ sideHandles ar)
    rw [sideHandles_dropIf, sideHandles_dropIf]
  rw [hA']
  have hsubB : (if (readSlot pool2 bh).quantity = 0 then btail else bh :: btail).Sublist
      (bh :: btail) := by
    split_ifs
    · exact List.sublist_cons_self _ _
    · exact List.Sublist.refl _
  have hsubA : (if (readSlot pool2 ah).quantity = 0 then atail else ah :: atail).Sublist
      (ah :: atail) := by
    split_ifs
    · exact List.sublist_cons_self _ _
    · exact List.Sublist.refl _
  constructor
  · exact List.Sublist.append
      (List.Sublist.append hsubB (List.Sublist.refl _))
      (List.Sublist.append hsubA (List.Sublist.refl _))
  · intro h' hmem
    simp only [readSlot_remk]
    by_cases hb' : h' = bh
    · subst hb'
      have hnbf : ¬ (readSlot pool2 h').quantity = 0 := by
        intro hbf
        rw [if_pos hbf] at hmem
        rcases List.mem_append.mp hmem with hm | hm
        · rcases List.mem_append.mp hm with hm2 | hm2
          · exact hbhT (List.mem_append.mpr (Or.inl hm2))
          · exact hbhT (List.mem_append.mpr (Or.inr hm2))
        · rcases List.mem_append.mp hm with hm2 | hm2
          · have h3 : h' ∈ ah :: atail := hsubA.subset hm2
            rcases List.mem_cons.mp h3 with h4 | h4
            · exact hbhR (List.mem_cons.mpr (Or.inl h4))
            · exact hbhR (List.mem_cons.mpr (Or.inr (List.mem_append.mpr (Or.inl h4))))
          · exact hbhR (List.mem_cons.mpr (Or.inr (List.mem_append.mpr (Or.inr hm2))))
      exact Nat.pos_of_ne_zero hnbf
    · by_cases ha' : h' = ah
      · subst ha'
        have hnaf : ¬ (readSlot pool2 h').quantity = 0 := by
          intro haf
          rw [if_pos haf] at hmem
          rcases List.mem_append.mp hmem with hm | hm
          · rcases List.mem_append.mp hm with hm2 | hm2
            · have h3 : h' ∈ bh :: btail := hsubB.subset hm2
              rcases List.mem_cons.mp h3 with h4 | h4
              · exact hahL (List.mem_cons.mpr (Or.inl h4))
              · exact hahL (List.mem_cons.mpr (Or.inr (List.mem_append.mpr (Or.inl h4))))
            · exact hahL (List.mem_cons.mpr (Or.inr (List.mem_append.mpr (Or.inr hm2))))
          · rcases List.mem_append.mp hm with hm2 | hm2
            · exact hahT (List.mem_append.mpr (Or.inl hm2))
            · exact hahT (List.mem_append.mpr (Or.inr hm2))
        exact Nat.pos_of_ne_zero hnaf
      · have hread : readSlot pool2 h' = readSlot pool h' := by
          rw [hpool2, readSlot_writeSlot_ne _ _ ha', hpool1,
            readSlot_writeSlot_ne _ _ hb']
        rw [hread]
        apply hq
        have hmem2 : h' ∈ ((bh :: btail) ++ sideHandles br)
            ++ ((ah :: atail) ++ sideHandles ar) := by
          refine (List.Sublist.append
            (List.Sublist.append hsubB (List.Sublist.refl _))
            (List.Sublist.append hsubA (List.Sublist.refl _))).subset hmem
        simpa using hmem2

/-- The whole matching loop only removes resting handles and keeps all
resting quantities positive. -/
theorem tryMatchFuel_liveqty :
    ∀ (n : Nat) (b : OrderBook), (allHandles b).Nodup → LiveQtyPos b →
      (allHandles (tryMatchFuel n b).1).Sublist (allHandles b) ∧
      LiveQtyPos (tryMatchFuel n b).1 := by
  intro n
  induction n with
  | zero =>
    intro b hnd hq
    exact ⟨List.Sublist.refl _, hq⟩
  | succ n ih =>
    intro b hnd hq
    cases hs : matchStep b with
    | none =>
      simp only [tryMatchFuel, hs]
      exact ⟨List.Sublist.refl _, hq⟩
    | some r =>
      obtain ⟨b', t⟩ := r
      have hms := matchStep_liveqty hs hnd hq
      have hih := ih b' (hms.1.nodup hnd) hms.2
      simp only [tryMatchFuel, hs]
      exact ⟨hih.1.trans hms.1, hih.2⟩

/-- Pushing a handle into a side book permutes the handle multiset with the
new handle added. -/
theorem sideHandles_insertBid (p : Int) (h : Nat) :
    ∀ (ls : SideBook), (sideHandles (insertBid p h ls)).Perm (h :: sideHandles ls) := by
  intro ls
  induction ls with
  | nil => simp [insertBid]
  | cons qf rest ih =>
    obtain ⟨q, f⟩ := qf
    by_cases h1 : p > q
    · simp only [insertBid, if_pos h1, sideHandles_cons]
      simp
    · by_cases h2 : p = q
      · simp only [insertBid, if_neg h1, if_pos h2, sideHandles_cons]
        exact (List.perm_append_singleton h f).append_right (sideHandles rest)
      · simp only [insertBid, if_neg h1, if_neg h2, sideHandles_cons]
        exact (ih.append_left f).trans List.perm_middle

/-- Mirror of `sideHandles_insertBid` for the ask side. -/
theorem sideHandles_insertAsk (p : Int) (h : Nat) :
    ∀ (ls : SideBook), (sideHandles (insertAsk p h ls)).Perm (h :: sideHandles ls) := by
  intro ls
  induction ls with
  | nil => simp [insertAsk]
  | cons qf rest ih =>
    obtain ⟨q, f⟩ := qf
    by_cases h1 : p < q
    · simp only [insertAsk, if_pos h1, sideHandles_cons]
      simp
    · by_cases h2 : p = q
      · simp only [insertAsk, if_neg h1, if_pos h2, sideHandles_cons]
        exact (List.perm_append_singleton h f).append_right (sideHandles rest)
      · simp only [insertAsk, if_neg h1, if_neg h2, sideHandles_cons]
        exact (ih.append_left f).trans List.perm_middle

/-- Steps 1–2 of `add_order` add exactly the fresh handle to the resting
multiset. -/
theorem allHandles_add_insert (now : Nat) (o : Order) (h : Nat)
    (rest : List Nat) (b : OrderBook) :
    (allHandles (add_insert now o h rest b)).Perm (h :: allHandles b) := by
  have hbuy : (if o.timestamp_ns = 0 then { o with timestamp_ns := now } else o).is_buy
      = o.is_buy := by
    split <;> rfl
  simp only [add_insert, allHandles, hbuy]
  by_cases hb : o.is_buy
  · simp only [hb, if_true]
    exact (sideHandles_insertBid _ h b.bids).append_right (sideHandles b.asks)
  · simp only [hb, if_false]
    exact ((sideHandles_insertAsk _ h b.asks).append_left (sideHandles b.bids)).trans
      List.perm_middle

/-- `add_order` with a positive input quantity keeps all resting
quantities positive, provided the free list and the resting handles are
mutually distinct. -/
theorem add_order_liveqty (now : Nat) (o : Order) (b : OrderBook)
    (hnd : (b.pool.free_list ++ allHandles b).Nodup)
    (hq : LiveQtyPos b) (ho : 0 < o.quantity) :
    LiveQtyPos (add_order now o b).1 := by
  cases hfree : b.pool.free_list with
  | nil =>
    unfold add_order
    rw [hfree]
    exact hq
  | cons h rest =>
    rw [add_order_eq_insert now o b h rest hfree]
    rw [hfree] at hnd
    have hfresh : h ∉ allHandles b := by
      have h1 := (List.nodup_cons.mp hnd).1
      intro hc
      exact h1 (List.mem_append.mpr (Or.inr hc))
    have hperm := allHandles_add_insert now o h rest b
    have hndX : (allHandles b).Nodup :=
      (List.nodup_append.mp (List.nodup_cons.mp hnd).2).2.1
    have hnd1 : (allHandles (add_insert now o h rest b)).Nodup :=
      hperm.nodup_iff.mpr (List.nodup_cons.mpr ⟨hfresh, hndX⟩)
    have hq1 : LiveQtyPos (add_insert now o h rest b) := by
      intro h' hmem
      have hmem' := hperm.subset hmem
      have hread : readSlot (add_insert now o h rest b).pool h'
          = Function.update b.pool.slots h
              (if o.timestamp_ns = 0 then { o with timestamp_ns := now } else o) h' := rfl
      rcases List.mem_cons.mp hmem' with hh | hh
      · subst hh
        rw [hread, Function.update_same]
        split <;> exact ho
      · have hne : h' ≠ h := fun hc => hfresh (hc ▸ hh)
        rw [hread, Function.update_noteq hne]
        exact hq h' hh
    exact (tryMatchFuel_liveqty _ _ hnd1 hq1).2

/-- Mid-FIFO removal only removes resting handles. -/
theorem sideHandles_remove_sublist (p : Int) (h : Nat) :
    ∀ (ls : SideBook),
      (sideHandles (removeHandleAtPrice p h ls)).Sublist (sideHandles ls) := by
  intro ls
  induction ls with
  | nil => simp [removeHandleAtPrice]
  | cons qf rest ih =>
    obtain ⟨q, f⟩ := qf
    by_cases h1 : q = p
    · simp only [removeHandleAtPrice, if_pos h1]
      by_cases h2 : (f.filter (fun x => x ≠ h)).isEmpty
      · rw [if_pos h2]
        simp only [sideHandles_cons]
        exact List.sublist_append_right f (sideHandles rest)
      · rw [if_neg h2]
        simp only [sideHandles_cons]
        exact List.Sublist.append (List.filter_sublist f) (List.Sublist.refl _)
    · simp only [removeHandleAtPrice, if_neg h1, sideHandles_cons]
      exact List.Sublist.append (List.Sublist.refl f) ih

/-- `cancel_order` leaves the arena slots untouched and only removes
resting handles, so it keeps all resting quantities positive. -/
theorem cancel_order_liveqty (id : Nat) (b : OrderBook) (hq : LiveQtyPos b) :
    LiveQtyPos (cancel_order id b).1 := by
  unfold cancel_order
  cases hf : lookupFind b.order_lookup id with
  | none => exact hq
  | some h =>
    dsimp only
    unfold remove_order_from_book
    by_cases hbuy : (readSlot b.pool h).is_buy
    · rw [if_pos hbuy]
      intro h' hmem
      refine hq h' ?_
      rcases List.mem_append.mp hmem with hm | hm
      · exact List.mem_append.mpr (Or.inl ((sideHandles_remove_sublist _ _ _).subset hm))
      · exact List.mem_append.mpr (Or.inr hm)
    · rw [if_neg hbuy]
      intro h' hmem
      refine hq h' ?_
      rcases List.mem_append.mp hmem with hm | hm
      · exact List.mem_append.mpr (Or.inl hm)
      · exact List.mem_append.mpr (Or.inr ((sideHandles_remove_sublist _ _ _).subset hm))

/-- A handle rests in a side book iff it is in some level's FIFO. -/
theorem mem_sideHandles {h : Nat} {ls : SideBook} :
    h ∈ sideHandles ls ↔ ∃ lv ∈ ls, h ∈ lv.2 := by
  simp only [sideHandles, List.mem_join, List.mem_map]
  constructor
  · rintro ⟨l, ⟨lv, hlv, hsnd⟩, hh⟩
    exact ⟨lv, hlv, by rw [hsnd]; exact hh⟩
  · rintro ⟨lv, hlv, hh⟩
    exact ⟨lv.2, ⟨lv, hlv, rfl⟩, hh⟩

/-- `lookupFind` only returns values stored in the association list. -/
theorem lookupFind_mem {m : List (Nat × Nat)} {id h : Nat} :
    lookupFind m id = some h → (id, h) ∈ m := by
  induction m with
  | nil => intro hc; simp [lookupFind] at hc
  | cons kv rest ih =>
    intro hf
    obtain ⟨k, v⟩ := kv
    by_cases hk : k = id
    · simp only [lookupFind, if_pos hk, Option.some.injEq] at hf
      subst hk
      subst hf
      exact List.mem_cons_self _ _
    · simp only [lookupFind, if_neg hk] at hf
      exact List.mem_cons.mpr (Or.inr (ih hf))

/-- Every FIFO entry points at a slot whose side flag and price agree with
the level it rests in (the cross-structure consistency invariant). -/
def SlotsConsistent (b : OrderBook) : Prop :=
  (∀ lv ∈ b.bids, ∀ h ∈ lv.2,
    (readSlot b.pool h).is_buy = true ∧ (readSlot b.pool h).price = lv.1) ∧
  (∀ lv ∈ b.asks, ∀ h ∈ lv.2,
    (readSlot b.pool h).is_buy = false ∧ (readSlot b.pool h).price = lv.1)

/-- Every identity-index entry points at a resting handle (P1, one half). -/
def LookupConsistent (b : OrderBook) : Prop :=
  ∀ kv ∈ b.order_lookup, kv.2 ∈ allHandles b

instance (b : OrderBook) : Decidable (SlotsConsistent b) := by
  unfold SlotsConsistent; infer_instance

instance (b : OrderBook) : Decidable (LookupConsistent b) := by
  unfold LookupConsistent; infer_instance

instance (b : OrderBook) : Decidable (LiveQtyPos b) := by
  unfold LiveQtyPos; infer_instance

/-- When a handle rests only at levels keyed by `p` and level keys are
distinct, `erase` removes every occurrence of the handle. -/
theorem removeHandle_not_mem {p : Int} {h : Nat} :
    ∀ {ls : SideBook}, ls.Pairwise (fun x y => x.1 ≠ y.1) →
      (∀ lv ∈ ls, h ∈ lv.2 → lv.1 = p) →
      h ∉ sideHandles (removeHandleAtPrice p h ls) := by
  intro ls
  induction ls with
  | nil => intro _ _; simp [removeHandleAtPrice]
  | cons qf rest ih =>
    intro hk hin
    obtain ⟨q, f⟩ := qf
    rw [List.pairwise_cons] at hk
    by_cases h1 : q = p
    · simp only [removeHandleAtPrice, if_pos h1]
      have hrest : h ∉ sideHandles rest := by
        intro hc
        obtain ⟨lv, hlv, hhl⟩ := mem_sideHandles.mp hc
        have hlp : lv.1 = p := hin lv (by simp [hlv]) hhl
        exact (hk.1 lv hlv) (h1.trans hlp.symm)
      by_cases h2 : (f.filter (fun x => x ≠ h)).isEmpty
      · rw [if_pos h2]
        exact hrest
      · rw [if_neg h2]
        simp only [sideHandles_cons, List.mem_append]
        rintro (hm | hm)
        · simp at hm
        · exact hrest hm
    · simp only [removeHandleAtPrice, if_neg h1, sideHandles_cons, List.mem_append]
      rintro (hm | hm)
      · exact h1 (hin (q, f) (by simp) hm)
      · exact ih hk.2 (fun lv hlv hhl => hin lv (by simp [hlv]) hhl) hm

/-- `cancel_order` keeps the free list and the resting handles mutually
distinct: the cancelled handle is fully detached from its side book before
being pushed onto the free list. -/
theorem cancel_order_nodup (id : Nat) (b : OrderBook)
    (hnd : (b.pool.free_list ++ allHandles b).Nodup)
    (hbs : BidsSorted b.bids) (has : AsksSorted b.asks)
    (hsc : SlotsConsistent b) (hlc : LookupConsistent b) :
    ((cancel_order id b).1.pool.free_list
      ++ allHandles (cancel_order id b).1).Nodup := by
  unfold cancel_order
  cases hf : lookupFind b.order_lookup id with
  | none => exact hnd
  | some h =>
    dsimp only
    unfold remove_order_from_book
    have hmem : h ∈ allHandles b := hlc (id, h) (lookupFind_mem hf)
    have hndparts := List.nodup_append.mp hnd
    have hfreeh : h ∉ b.pool.free_list := fun hc => hndparts.2.2 hc hmem
    have hbs' : b.bids.Pairwise (fun x y => x.1 ≠ y.1) :=
      List.Pairwise.imp (fun hlt => ne_of_gt hlt) hbs
    have has' : b.asks.Pairwise (fun x y => x.1 ≠ y.1) :=
      List.Pairwise.imp (fun hlt => ne_of_lt hlt) has
    by_cases hbuy : (readSlot b.pool h).is_buy
    · rw [if_pos hbuy]
      have hnotB : h ∉ sideHandles
          (removeHandleAtPrice (readSlot b.pool h).price h b.bids) := by
        refine removeHandle_not_mem hbs' ?_
        intro lv hlv hhl
        exact (hsc.1 lv hlv h hhl).2.symm
      have hnotA : h ∉ sideHandles b.asks := by
        intro hm
        obtain ⟨lv, hlv, hhl⟩ := mem_sideHandles.mp hm
        have h2 := (hsc.2 lv hlv h hhl).1
        rw [hbuy] at h2
        simp at h2
      have hsubR : (sideHandles (removeHandleAtPrice (readSlot b.pool h).price h b.bids)
          ++ sideHandles b.asks).Sublist (allHandles b) :=
        List.Sublist.append (sideHandles_remove_sublist _ _ _) (List.Sublist.refl _)
      refine List.nodup_cons.mpr ⟨?_, ?_⟩
      · intro hc
        rcases List.mem_append.mp hc with hm | hm
        · exact hfreeh hm
        · rcases List.mem_append.mp hm with hm2 | hm2
          · exact hnotB hm2
          · exact hnotA hm2
      · exact (List.Sublist.append (List.Sublist.refl b.pool.free_list) hsubR).nodup hnd
    · rw [if_neg hbuy]
      have hnotA : h ∉ sideHandles
          (removeHandleAtPrice (readSlot b.pool h).price h b.asks) := by
        refine removeHandle_not_mem has' ?_
        intro lv hlv hhl
        exact (hsc.2 lv hlv h hhl).2.symm
      have hnotB : h ∉ sideHandles b.bids := by
        intro hm
        obtain ⟨lv, hlv, hhl⟩ := mem_sideHandles.mp hm
        exact hbuy (by simp [(hsc.1 lv hlv h hhl).1])
      have hsubR : (sideHandles b.bids ++ sideHandles
          (removeHandleAtPrice (readSlot b.pool h).price h b.asks)).Sublist
            (allHandles b) :=
        List.Sublist.append (List.Sublist.refl _) (sideHandles_remove_sublist _ _ _)
      refine List.nodup_cons.mpr ⟨?_, ?_⟩
      · intro hc
        rcases List.mem_append.mp hc with hm | hm
        · exact hfreeh hm
        · rcases List.mem_append.mp hm with hm2 | hm2
          · exact hnotB hm2
          · exact hnotA hm2
      · exact (List.Sublist.append (List.Sublist.refl b.pool.free_list) hsubR).nodup hnd

/-- `amend_order` with a positive `new_quantity` keeps all resting
quantities positive: the in-place branch writes `new_quantity` into one
slot; the price-change branch is an internal cancel+add. -/
theorem amend_order_liveqty (now id : Nat) (np : Int) (nq : Nat)
    (b : OrderBook)
    (hnd : (b.pool.free_list ++ allHandles b).Nodup)
    (hbs : BidsSorted b.bids) (has : AsksSorted b.asks)
    (hsc : SlotsConsistent b) (hlc : LookupConsistent b)
    (hq : LiveQtyPos b) (hnq : 0 < nq) :
    LiveQtyPos (amend_order now id np nq b).1 := by
  unfold amend_order
  cases hf : lookupFind b.order_lookup id with
  | none => exact hq
  | some h =>
    dsimp only
    by_cases hp : (readSlot b.pool h).price ≠ np
    · rw [if_pos hp]
      exact add_order_liveqty now _ (cancel_order id b).1
        (cancel_order_nodup id b hnd hbs has hsc hlc)
        (cancel_order_liveqty id b hq) hnq
    · rw [if_neg hp]
      intro h' hmem
      by_cases hh : h' = h
      · subst hh
        simpa [readSlot, writeSlot] using hnq
      · rw [(readSlot_writeSlot_ne b.pool _ hh :
          readSlot (writeSlot b.pool h ({ readSlot b.pool h with quantity := nq })) h'
            = readSlot b.pool h')]
        exact hq h' hmem

/-- C2 (amended): provided every added order has a positive quantity and
every in-place amend passes a positive `new_quantity`, every order that is
live in a well-formed book has remaining quantity strictly greater than
zero after every public operation (`add_order`, `cancel_order`,
`amend_order`, `get_snapshot`).  Well-formed means: free list and resting
handles mutually distinct, side books sorted, slots consistent with their
levels, and identity-index entries pointing at resting handles. -/
theorem public_ops_qty_pos (b : OrderBook)
    (now1 : Nat) (o : Order) (id2 now3 id3 : Nat) (np : Int) (nq : Nat)
    (depth : Nat) (pv av : List PriceLevel)
    (hnd : (b.pool.free_list ++ allHandles b).Nodup)
    (hbs : BidsSorted b.bids) (has : AsksSorted b.asks)
    (hsc : SlotsConsistent b) (hlc : LookupConsistent b)
    (hq : LiveQtyPos b) (ho : 0 < o.quantity) (hnq : 0 < nq) :
    LiveQtyPos (add_order now1 o b).1 ∧
    LiveQtyPos (cancel_order id2 b).1 ∧
    LiveQtyPos (amend_order now3 id3 np nq b).1 ∧
    LiveQtyPos (get_snapshot b depth pv av).1 :=
  ⟨add_order_liveqty now1 o b hnd hq ho,
   cancel_order_liveqty id2 b hq,
   amend_order_liveqty now3 id3 np nq b hnd hbs has hsc hlc hq hnq,
   hq⟩

/-- Witness for C2's amended theorem at the concrete book `bookOneBuy`. -/
theorem public_ops_qty_pos_witness :
    LiveQtyPos (add_order 3 ⟨2, false, 150, 5, 4⟩ bookOneBuy).1 ∧
    LiveQtyPos (cancel_order 7 bookOneBuy).1 ∧
    LiveQtyPos (amend_order 9 7 120 10 bookOneBuy).1 ∧
    LiveQtyPos (get_snapshot bookOneBuy 2 [] []).1 :=
  public_ops_qty_pos bookOneBuy 3 ⟨2, false, 150, 5, 4⟩ 7 9 7 120 10 2 [] []
    (by decide) (by decide) (by decide) (by decide) (by decide) (by decide)
    (by decide) (by decide)

/-! ### C8: cancel inverts add (no-cross case) -/

/-- An uncrossed book cannot match: the loop guard fails immediately. -/
theorem matchStep_of_uncrossed {b : OrderBook} (hU : Uncrossed b) :
    matchStep b = none := by
  obtain ⟨pool, bids, asks, lk⟩ := b
  rcases bids with _ | ⟨⟨bp, bfifo⟩, br⟩
  · simp [matchStep]
  rcases asks with _ | ⟨⟨ap, afifo⟩, ar⟩
  · rcases bfifo with _ | ⟨x, xs⟩ <;> rfl
  · have hcross : bp < ap := hU bp (by simp) ap (by simp)
    simp [matchStep, hcross]

/-- Removing an unrelated handle from a FIFO changes nothing. -/
theorem filter_ne_of_not_mem {l : List Nat} {h : Nat} (hn : h ∉ l) :
    l.filter (fun x => x ≠ h) = l := by
  rw [List.filter_eq_self]
  intro a ha
  simp only [ne_eq, decide_eq_true_eq]
  exact fun hc => hn (hc ▸ ha)

/-- Erasing a freshly pushed handle restores the bid book exactly. -/
theorem removeHandle_insertBid (p : Int) (h : Nat) :
    ∀ (ls : SideBook), h ∉ sideHandles ls → LevelsNonempty ls →
      removeHandleAtPrice p h (insertBid p h ls) = ls := by
  intro ls
  induction ls with
  | nil =>
    intro _ _
    simp [insertBid, removeHandleAtPrice]
  | cons qf rest ih =>
    intro hfresh hne
    obtain ⟨q, f⟩ := qf
    have hfreshf : h ∉ f := fun hc => hfresh (by simp [hc])
    have hfreshr : h ∉ sideHandles rest := fun hc => hfresh (by simp [hc])
    by_cases h1 : p > q
    · simp only [insertBid, if_pos h1, removeHandleAtPrice, if_pos rfl]
      simp
    · by_cases h2 : p = q
      · simp only [insertBid, if_neg h1, if_pos h2, removeHandleAtPrice,
          if_pos h2.symm]
        rw [List.filter_append, filter_ne_of_not_mem hfreshf]
        simp only [List.filter_cons]
        have hd : (decide ¬h = h) = false := by simp
        rw [hd]
        have hfne : f ≠ [] := hne (q, f) (by simp)
        simp [List.isEmpty_iff, hfne]
      · have h3 : ¬ q = p := fun hc => h2 hc.symm
        simp only [insertBid, if_neg h1, if_neg h2, removeHandleAtPrice, if_neg h3]
        rw [ih hfreshr (fun lv hlv => hne lv (by simp [hlv]))]

/-- Erasing a freshly pushed handle restores the ask book exactly. -/
theorem removeHandle_insertAsk (p : Int) (h : Nat) :
    ∀ (ls : SideBook), h ∉ sideHandles ls → LevelsNonempty ls →
      removeHandleAtPrice p h (insertAsk p h ls) = ls := by
  intro ls
  induction ls with
  | nil =>
    intro _ _
    simp [insertAsk, removeHandleAtPrice]
  | cons qf rest ih =>
    intro hfresh hne
    obtain ⟨q, f⟩ := qf
    have hfreshf : h ∉ f := fun hc => hfresh (by simp [hc])
    have hfreshr : h ∉ sideHandles rest := fun hc => hfresh (by simp [hc])
    by_cases h1 : p < q
    · simp only [insertAsk, if_pos h1, removeHandleAtPrice, if_pos rfl]
      simp
    · by_cases h2 : p = q
      · simp only [insertAsk, if_neg h1, if_pos h2, removeHandleAtPrice,
          if_pos h2.symm]
        rw [List.filter_append, filter_ne_of_not_mem hfreshf]
        simp only [List.filter_cons]
        have hd : (decide ¬h = h) = false := by simp
        rw [hd]
        have hfne : f ≠ [] := hne (q, f) (by simp)
        simp [List.isEmpty_iff, hfne]
      · have h3 : ¬ q = p := fun hc => h2 hc.symm
        simp only [insertAsk, if_neg h1, if_neg h2, removeHandleAtPrice, if_neg h3]
        rw [ih hfreshr (fun lv hlv => hne lv (by simp [hlv]))]

/-- Cancelling a freshly inserted order restores the identity index, both
side books and (modulo the used handle's slot) the arena exactly. -/
theorem insert_cancel_core (oo : Order) (h : Nat) (rest : List Nat)
    (b : OrderBook)
    (hid : lookupFind b.order_lookup oo.order_id = none)
    (hfreshB : h ∉ sideHandles b.bids) (hfreshA : h ∉ sideHandles b.asks)
    (hneB : LevelsNonempty b.bids) (hneA : LevelsNonempty b.asks) :
    cancel_order oo.order_id
      ⟨{ slots := Function.update b.pool.slots h oo, free_list := rest },
        (if oo.is_buy then insertBid oo.price h b.bids else b.bids),
        (if oo.is_buy then b.asks else insertAsk oo.price h b.asks),
        lookupInsert b.order_lookup oo.order_id h⟩
      = (⟨{ slots := Function.update b.pool.slots h oo, free_list := h :: rest },
          b.bids, b.asks, b.order_lookup⟩, true) := by
  have hread : readSlot
      ({ slots := Function.update b.pool.slots h oo, free_list := rest } : MemoryPool) h
      = oo := by
    show Function.update b.pool.slots h oo h = oo
    exact Function.update_same h oo b.pool.slots
  by_cases hbuy : oo.is_buy = true
  · rw [if_pos hbuy, if_pos hbuy]
    unfold cancel_order
    rw [lookupFind_insert_self]
    dsimp only
    unfold remove_order_from_book
    rw [hread, if_pos hbuy]
    rw [removeHandle_insertBid oo.price h b.bids hfreshB hneB,
      lookupErase_insert b.order_lookup oo.order_id h hid]
  · rw [if_neg hbuy, if_neg hbuy]
    unfold cancel_order
    rw [lookupFind_insert_self]
    dsimp only
    unfold remove_order_from_book
    rw [hread, if_neg hbuy]
    rw [removeHandle_insertAsk oo.price h b.asks hfreshA hneA,
      lookupErase_insert b.order_lookup oo.order_id h hid]

/-- C8 (amended): for every well-formed uncrossed book and every order
whose id is not live and whose limit price does not cross the opposite
side, `add_order` emits no trades and the following `cancel_order`
restores the identity index, both side books and the free list exactly;
arena slots differ only at the handle the add consumed. -/
theorem add_cancel_roundtrip (now : Nat) (o : Order) (b : OrderBook)
    (h : Nat) (rest : List Nat) (hfree : b.pool.free_list = h :: rest)
    (hid : lookupFind b.order_lookup o.order_id = none)
    (hfresh : h ∉ allHandles b)
    (hneB : LevelsNonempty b.bids) (hneA : LevelsNonempty b.asks)
    (hU : Uncrossed b)
    (hncB : o.is_buy = true → ∀ pa ∈ b.asks.map Prod.fst, o.price < pa)
    (hncA : o.is_buy = false → ∀ pb ∈ b.bids.map Prod.fst, pb < o.price) :
    (add_order now o b).2.1 = [] ∧
    (cancel_order o.order_id (add_order now o b).1).2 = true ∧
    (cancel_order o.order_id (add_order now o b).1).1.bids = b.bids ∧
    (cancel_order o.order_id (add_order now o b).1).1.asks = b.asks ∧
    (cancel_order o.order_id (add_order now o b).1).1.order_lookup
      = b.order_lookup ∧
    (cancel_order o.order_id (add_order now o b).1).1.pool.free_list
      = b.pool.free_list ∧
    (∀ h', h' ≠ h →
      readSlot (cancel_order o.order_id (add_order now o b).1).1.pool h'
        = readSlot b.pool h') := by
  have hfreshB : h ∉ sideHandles b.bids :=
    fun hc => hfresh (List.mem_append.mpr (Or.inl hc))
  have hfreshA : h ∉ sideHandles b.asks :=
    fun hc => hfresh (List.mem_append.mpr (Or.inr hc))
  have hbids1 : (add_insert now o h rest b).bids
      = if o.is_buy then insertBid o.price h b.bids else b.bids := by
    by_cases hts : o.timestamp_ns = 0 <;> simp [add_insert, hts]
  have hasks1 : (add_insert now o h rest b).asks
      = if o.is_buy then b.asks else insertAsk o.price h b.asks := by
    by_cases hts : o.timestamp_ns = 0 <;> simp [add_insert, hts]
  have hU1 : Uncrossed (add_insert now o h rest b) := by
    intro pb hpb pa hpa
    rw [hbids1] at hpb
    rw [hasks1] at hpa
    by_cases hbuy : o.is_buy
    · rw [if_pos hbuy] at hpb
      rw [if_pos hbuy] at hpa
      obtain ⟨lv, hlv, heq⟩ := List.mem_map.mp hpb
      rcases insertBid_price_mem hlv with hh | hh
      · rw [← heq, hh]
        exact hncB (by simp [hbuy]) pa hpa
      · exact hU pb (by rw [← heq]; exact heq ▸ hh) pa hpa
    · rw [if_neg hbuy] at hpb
      rw [if_neg hbuy] at hpa
      obtain ⟨lv, hlv, heq⟩ := List.mem_map.mp hpa
      rcases insertAsk_price_mem hlv with hh | hh
      · rw [← heq, hh]
        exact hncA (by simp [hbuy]) pb hpb
      · exact hU pb hpb pa (by rw [← heq]; exact heq ▸ hh)
  have hnone : matchStep (add_insert now o h rest b) = none :=
    matchStep_of_uncrossed hU1
  have haddeq : add_order now o b = (add_insert now o h rest b, [], none) := by
    rw [add_order_eq_insert now o b h rest hfree]
    unfold try_match
    rw [tryMatchFuel_of_none hnone]
  set o' : Order := if o.timestamp_ns = 0 then { o with timestamp_ns := now } else o
    with ho'
  have ho'id : o'.order_id = o.order_id := by rw [ho']; split <;> rfl
  have hcore := insert_cancel_core o' h rest b (by rw [ho'id]; exact hid)
    hfreshB hfreshA hneB hneA
  have hb1 : (add_insert now o h rest b) =
      ⟨{ slots := Function.update b.pool.slots h o', free_list := rest },
        (if o'.is_buy then insertBid o'.price h b.bids else b.bids),
        (if o'.is_buy then b.asks else insertAsk o'.price h b.asks),
        lookupInsert b.order_lookup o'.order_id h⟩ := rfl
  have hcancel : cancel_order o.order_id (add_order now o b).1
      = (⟨{ slots := Function.update b.pool.slots h o', free_list := h :: rest },
          b.bids, b.asks, b.order_lookup⟩, true) := by
    rw [haddeq]
    show cancel_order o.order_id (add_insert now o h rest b) = _
    rw [hb1, ← ho'id]
    exact hcore
  rw [hcancel, haddeq]
  refine ⟨rfl, rfl, rfl, rfl, rfl, hfree.symm, ?_⟩
  intro h' hne
  show Function.update b.pool.slots h o' h' = readSlot b.pool h'
  rw [Function.update_noteq hne]
  rfl

/-- Book holding a single resting sell (id 20, price 100, qty 10,
handle 1) with one free slot (handle 0). -/
def bookOneSell : OrderBook :=
  { pool := { slots := (fun h => if h = 1 then ⟨20, false, 100, 10, 1⟩ else default)
              free_list := [0] }
    bids := [], asks := [(100, [1])], order_lookup := [(20, 1)] }

/-- C8 counterexample: for an order that CROSSES the book, cancel does not
invert add.  Adding buy(id 10, price 100, qty 10) to `bookOneSell` trades
against the resting sell, fully consuming both; the subsequent
`cancel_order(10)` returns false, and the book (its ask side and identity
index) differs from the pre-add state. -/
theorem add_cancel_roundtrip_cex :
    lookupFind bookOneSell.order_lookup 10 = none ∧
    (cancel_order 10 (add_order 2 ⟨10, true, 100, 10, 2⟩ bookOneSell).1).2 = false ∧
    (cancel_order 10 (add_order 2 ⟨10, true, 100, 10, 2⟩ bookOneSell).1).1.asks = [] ∧
    bookOneSell.asks = [(100, [1])] ∧
    (cancel_order 10 (add_order 2 ⟨10, true, 100, 10, 2⟩ bookOneSell).1).1.order_lookup
      = [] ∧
    bookOneSell.order_lookup = [(20, 1)] :=
  ⟨rfl, rfl, rfl, rfl, rfl, rfl⟩

/-- Witness for C8's amended theorem: a non-crossing sell added to
`bookOneBuy` and cancelled leaves the book exactly as before. -/
theorem add_cancel_roundtrip_witness :
    (add_order 4 ⟨2, false, 150, 5, 4⟩ bookOneBuy).2.1 = [] ∧
    (cancel_order 2 (add_order 4 ⟨2, false, 150, 5, 4⟩ bookOneBuy).1).2 = true ∧
    (cancel_order 2 (add_order 4 ⟨2, false, 150, 5, 4⟩ bookOneBuy).1).1.bids
      = bookOneBuy.bids ∧
    (cancel_order 2 (add_order 4 ⟨2, false, 150, 5, 4⟩ bookOneBuy).1).1.asks
      = bookOneBuy.asks ∧
    (cancel_order 2 (add_order 4 ⟨2, false, 150, 5, 4⟩ bookOneBuy).1).1.order_lookup
      = bookOneBuy.order_lookup ∧
    (cancel_order 2 (add_order 4 ⟨2, false, 150, 5, 4⟩ bookOneBuy).1).1.pool.free_list
      = bookOneBuy.pool.free_list ∧
    readSlot (cancel_order 2 (add_order 4 ⟨2, false, 150, 5, 4⟩ bookOneBuy).1).1.pool 0
      = readSlot bookOneBuy.pool 0 := by
  have hfull := add_cancel_roundtrip 4 ⟨2, false, 150, 5, 4⟩ bookOneBuy 1 []
    rfl rfl (by decide) (by decide) (by decide) (by decide)
    (by decide) (by decide)
  exact ⟨hfull.1, hfull.2.1, hfull.2.2.1, hfull.2.2.2.1, hfull.2.2.2.2.1,
    hfull.2.2.2.2.2.1, hfull.2.2.2.2.2.2 0 (by decide)⟩

/-! ### C9: snapshot correctness -/

/-- C9 (amended): `get_snapshot` mutates no book state and returns, per
side, the levels in best-first iteration order (strictly descending prices
for bids, strictly ascending for asks), at most `depth` per side (fewer on
a thin book), each `PriceLevel` carrying that level's price and the sum of
the remaining quantities of the orders resting at the level REDUCED MODULO
2^64: the source accumulates the total in a `uint64_t`, which wraps when a
level's true sum reaches 2^64 (see the counterexample), and equals the
true sum exactly when it does not. -/
theorem get_snapshot_spec (b : OrderBook) (depth : Nat)
    (pv av : List PriceLevel)
    (hbs : BidsSorted b.bids) (has : AsksSorted b.asks) :
    (get_snapshot b depth pv av).1 = b ∧
    (get_snapshot b depth pv av).2.1.length = min depth b.bids.length ∧
    (get_snapshot b depth pv av).2.2.length = min depth b.asks.length ∧
    ((get_snapshot b depth pv av).2.1.map PriceLevel.price)
      = (b.bids.take depth).map Prod.fst ∧
    ((get_snapshot b depth pv av).2.2.map PriceLevel.price)
      = (b.asks.take depth).map Prod.fst ∧
    ((get_snapshot b depth pv av).2.1.map PriceLevel.price).Pairwise
      (fun x y => y < x) ∧
    ((get_snapshot b depth pv av).2.2.map PriceLevel.price).Pairwise
      (fun x y => x < y) ∧
    (∀ pl ∈ (get_snapshot b depth pv av).2.1, ∃ lv ∈ b.bids,
      pl.price = lv.1 ∧
      pl.total_quantity
        = (lv.2.map fun h => (readSlot b.pool h).quantity).sum % UINT64_MOD) ∧
    (∀ pl ∈ (get_snapshot b depth pv av).2.2, ∃ lv ∈ b.asks,
      pl.price = lv.1 ∧
      pl.total_quantity
        = (lv.2.map fun h => (readSlot b.pool h).quantity).sum % UINT64_MOD) := by
  have hsnapB : (get_snapshot b depth pv av).2.1
      = (b.bids.take depth).map
          fun lv => (⟨lv.1, levelTotal b.pool lv.2⟩ : PriceLevel) := by
    simp [get_snapshot]
  have hsnapA : (get_snapshot b depth pv av).2.2
      = (b.asks.take depth).map
          fun lv => (⟨lv.1, levelTotal b.pool lv.2⟩ : PriceLevel) := by
    simp [get_snapshot]
  have hpriceB : ((get_snapshot b depth pv av).2.1.map PriceLevel.price)
      = (b.bids.take depth).map Prod.fst := by
    rw [hsnapB, List.map_map]
    rfl
  have hpriceA : ((get_snapshot b depth pv av).2.2.map PriceLevel.price)
      = (b.asks.take depth).map Prod.fst := by
    rw [hsnapA, List.map_map]
    rfl
  refine ⟨rfl, ?_, ?_, hpriceB, hpriceA, ?_, ?_, ?_, ?_⟩
  · rw [hsnapB]
    simp
  · rw [hsnapA]
    simp
  · rw [hpriceB]
    exact List.pairwise_map.mpr
      ((show b.bids.Pairwise (fun x y => y.1 < x.1) from hbs).sublist
        (List.take_sublist depth b.bids))
  · rw [hpriceA]
    exact List.pairwise_map.mpr
      ((show b.asks.Pairwise (fun x y => x.1 < y.1) from has).sublist
        (List.take_sublist depth b.asks))
  · intro pl hpl
    rw [hsnapB] at hpl
    obtain ⟨lv, hlv, heq⟩ := List.mem_map.mp hpl
    have hlv' : lv ∈ b.bids := (List.take_sublist depth b.bids).subset hlv
    refine ⟨lv, hlv', ?_, ?_⟩
    · rw [← heq]
    · rw [← heq]
      show levelTotal b.pool lv.2 = _
      unfold levelTotal
      rfl
  · intro pl hpl
    rw [hsnapA] at hpl
    obtain ⟨lv, hlv, heq⟩ := List.mem_map.mp hpl
    have hlv' : lv ∈ b.asks := (List.take_sublist depth b.asks).subset hlv
    refine ⟨lv, hlv', ?_, ?_⟩
    · rw [← heq]
    · rw [← heq]
      show levelTotal b.pool lv.2 = _
      unfold levelTotal
      rfl

/-- Witness for C9 at a concrete book (binder-free conjuncts). -/
theorem get_snapshot_spec_witness :
    (get_snapshot bookOneBuy 2 [] []).1 = bookOneBuy ∧
    (get_snapshot bookOneBuy 2 [] []).2.1.length = min 2 bookOneBuy.bids.length ∧
    (get_snapshot bookOneBuy 2 [] []).2.2.length = min 2 bookOneBuy.asks.length ∧
    ((get_snapshot bookOneBuy 2 [] []).2.1.map PriceLevel.price)
      = (bookOneBuy.bids.take 2).map Prod.fst ∧
    ((get_snapshot bookOneBuy 2 [] []).2.2.map PriceLevel.price)
      = (bookOneBuy.asks.take 2).map Prod.fst ∧
    ((get_snapshot bookOneBuy 2 [] []).2.1.map PriceLevel.price).Pairwise
      (fun x y => y < x) ∧
    ((get_snapshot bookOneBuy 2 [] []).2.2.map PriceLevel.price).Pairwise
      (fun x y => x < y) := by
  have hfull := get_snapshot_spec bookOneBuy 2 [] [] (by decide) (by decide)
  exact ⟨hfull.1, hfull.2.1, hfull.2.2.1, hfull.2.2.2.1, hfull.2.2.2.2.1,
    hfull.2.2.2.2.2.1, hfull.2.2.2.2.2.2.1⟩

/-! ### C3 (amended, general form): zero-quantity orders are not rejected -/

/-- `push` places the handle in the FIFO of its price level (ask side). -/
theorem insertAsk_mem_self (p : Int) (h : Nat) (ls : SideBook) :
    ∃ lv ∈ insertAsk p h ls, lv.1 = p ∧ h ∈ lv.2 := by
  induction ls with
  | nil => exact ⟨(p, [h]), by simp [insertAsk]⟩
  | cons qf rest ih =>
    obtain ⟨q, fifo⟩ := qf
    by_cases h1 : p < q
    · exact ⟨(p, [h]), by simp [insertAsk, h1]⟩
    · by_cases h2 : p = q
      · refine ⟨(q, fifo ++ [h]), ?_, h2.symm, by simp⟩
        simp [insertAsk, h1, h2]
      · obtain ⟨lv, hmem, hp, hh⟩ := ih
        exact ⟨lv, by simp [insertAsk, h1, h2, hmem], hp, hh⟩

/-- Inserting an order whose limit price does not cross the opposite side
into an uncrossed book leaves the book uncrossed. -/
theorem add_insert_uncrossed (now : Nat) (o : Order) (h : Nat)
    (rest : List Nat) (b : OrderBook) (hU : Uncrossed b)
    (hncB : o.is_buy = true → ∀ pa ∈ b.asks.map Prod.fst, o.price < pa)
    (hncA : o.is_buy = false → ∀ pb ∈ b.bids.map Prod.fst, pb < o.price) :
    Uncrossed (add_insert now o h rest b) := by
  have hbids1 : (add_insert now o h rest b).bids
      = if o.is_buy then insertBid o.price h b.bids else b.bids := by
    by_cases hts : o.timestamp_ns = 0 <;> simp [add_insert, hts]
  have hasks1 : (add_insert now o h rest b).asks
      = if o.is_buy then b.asks else insertAsk o.price h b.asks := by
    by_cases hts : o.timestamp_ns = 0 <;> simp [add_insert, hts]
  intro pb hpb pa hpa
  rw [hbids1] at hpb
  rw [hasks1] at hpa
  by_cases hbuy : o.is_buy
  · rw [if_pos hbuy] at hpb
    rw [if_pos hbuy] at hpa
    obtain ⟨lv, hlv, heq⟩ := List.mem_map.mp hpb
    rcases insertBid_price_mem hlv with hh | hh
    · rw [← heq, hh]
      exact hncB (by simp [hbuy]) pa hpa
    · exact hU pb (by rw [← heq]; exact heq ▸ hh) pa hpa
  · rw [if_neg hbuy] at hpb
    rw [if_neg hbuy] at hpa
    obtain ⟨lv, hlv, heq⟩ := List.mem_map.mp hpa
    rcases insertAsk_price_mem hlv with hh | hh
    · rw [← heq, hh]
      exact hncA (by simp [hbuy]) pb hpb
    · exact hU pb hpb pa (by rw [← heq]; exact heq ▸ hh)

/-- C3 amended: `add_order` performs no quantity validation.  An order
with `quantity = 0` — of either side — is inserted into the identity
index and its side-book FIFO like any other order; whenever it does not
cross the (uncrossed) book it rests live in the book with quantity
zero, and no error is reported. -/
theorem add_order_zero_qty_inserted (now : Nat) (o : Order) (b : OrderBook)
    (h : Nat) (rest : List Nat) (hfree : b.pool.free_list = h :: rest)
    (hqty : o.quantity = 0) (hU : Uncrossed b)
    (hncB : o.is_buy = true → ∀ pa ∈ b.asks.map Prod.fst, o.price < pa)
    (hncA : o.is_buy = false → ∀ pb ∈ b.bids.map Prod.fst, pb < o.price) :
    lookupFind (add_order now o b).1.order_lookup o.order_id = some h ∧
    (readSlot (add_order now o b).1.pool h).quantity = 0 ∧
    (o.is_buy = true →
      ∃ lv ∈ (add_order now o b).1.bids, lv.1 = o.price ∧ h ∈ lv.2) ∧
    (o.is_buy = false →
      ∃ lv ∈ (add_order now o b).1.asks, lv.1 = o.price ∧ h ∈ lv.2) ∧
    (add_order now o b).2.2 = none := by
  have hnone : matchStep (add_insert now o h rest b) = none :=
    matchStep_of_uncrossed (add_insert_uncrossed now o h rest b hU hncB hncA)
  have haddeq : add_order now o b = (add_insert now o h rest b, [], none) := by
    rw [add_order_eq_insert now o b h rest hfree]
    unfold try_match
    rw [tryMatchFuel_of_none hnone]
  rw [haddeq]
  have hfields : (add_insert now o h rest b).order_lookup
        = lookupInsert b.order_lookup o.order_id h ∧
      (readSlot (add_insert now o h rest b).pool h).quantity = 0 ∧
      (o.is_buy = true →
        (add_insert now o h rest b).bids = insertBid o.price h b.bids) ∧
      (o.is_buy = false →
        (add_insert now o h rest b).asks = insertAsk o.price h b.asks) := by
    by_cases hts : o.timestamp_ns = 0 <;>
      by_cases hbuy : o.is_buy <;>
        simp [add_insert, hts, hbuy, readSlot, hqty]
  refine ⟨?_, hfields.2.1, ?_, ?_, rfl⟩
  · rw [hfields.1]
    exact lookupFind_insert_self b.order_lookup o.order_id h
  · intro hbuy
    rw [hfields.2.2.1 hbuy]
    exact insertBid_mem_self o.price h b.bids
  · intro hbuy
    rw [hfields.2.2.2 hbuy]
    exact insertAsk_mem_self o.price h b.asks

/-- Witness for C3's amended theorem: a zero-quantity SELL (id 2, price
150) added to the uncrossed, nonempty book `bookOneBuy` (best bid 100)
rests live with quantity zero and no error. -/
theorem add_order_zero_qty_inserted_witness :
    lookupFind (add_order 4 ⟨2, false, 150, 0, 4⟩ bookOneBuy).1.order_lookup 2
      = some 1 ∧
    (readSlot (add_order 4 ⟨2, false, 150, 0, 4⟩ bookOneBuy).1.pool 1).quantity
      = 0 ∧
    (add_order 4 ⟨2, false, 150, 0, 4⟩ bookOneBuy).2.2 = none := by
  have hfull := add_order_zero_qty_inserted 4 ⟨2, false, 150, 0, 4⟩ bookOneBuy 1 []
    rfl rfl (by decide) (by decide) (by decide)
  exact ⟨hfull.1, hfull.2.1, hfull.2.2.2.2⟩

/-- Book with one bid level holding two resting buys of 2^63 each: its
true quantity sum is 2^64, which overflows the snapshot's `uint64_t`
accumulator.  Reachable, since `add_order` validates nothing and the two
buys cause no cross. -/
def bookWrap : OrderBook :=
  { pool := { slots := (fun h =>
                        if h = 0 then ⟨1, true, 100, 2 ^ 63, 1⟩
                        else if h = 1 then ⟨2, true, 100, 2 ^ 63, 2⟩ else default)
              free_list := [] }
    bids := [(100, [0, 1])], asks := [], order_lookup := [(1, 0), (2, 1)] }

/-- C9 counterexample: on `bookWrap` the level's true sum of remaining
quantities is 2^64, but the returned `PriceLevel` carries `total_quantity`
0 — the `uint64_t` accumulator wraps — so the snapshot does NOT report
"the sum of the remaining quantities" as the claim states. -/
theorem get_snapshot_wrap_cex :
    (((bookWrap.bids.head?.getD (0, [])).2.map
        fun h => (readSlot bookWrap.pool h).quantity).sum = 2 ^ 64) ∧
    ((get_snapshot bookWrap 1 [] []).2.1.map PriceLevel.total_quantity) = [0] ∧
    (0 : Nat) ≠ 2 ^ 64 := by
  refine ⟨by decide, by decide, by decide⟩
